import Mathlib

/-!
# Verification of the `drive_db` metadata database

A shallow embedding of the `drive_db` package (LevelDB-backed Google Drive
metadata mirror).  The embedding models:

* the durable key schema (`int:`, `f2i:`, `i2f:`, `fid:`, `rtf:`, `kid:`
  prefixes) as a structured `Key` type — faithful because the four-character
  tags are pairwise distinct, so the flat byte keyspace is isomorphic to the
  tagged sum; prefix scans never cross tags,
* LevelDB as an association list of key/value pairs with point get/put/delete,
  batched writes applied in order, and prefix iteration,
* the in-memory checkpoint (`DriveDB.cpt`) next to the durable store,
* write failures via an explicit schedule (`Sched`) consumed one entry per
  `db.Write` call; the empty schedule means every commit succeeds.

RemoteIds are modelled as lists of characters so that the byte-level prefix
scans and slicing (`pidcid[len(fileId)+1:]`) of the Go code translate to
`List.isPrefixOf` and `List.drop`.
-/

namespace DriveDB

/-- Decidable equality for `Except`, so that concrete runs can be settled by
`decide`. -/
instance {ε α : Type} [DecidableEq ε] [DecidableEq α] : DecidableEq (Except ε α) := fun a b =>
  match a, b with
  | .ok x, .ok y =>
    match decEq x y with
    | .isTrue h => .isTrue (congrArg _ h)
    | .isFalse h => .isFalse (fun hh => h (Except.ok.inj hh))
  | .error x, .error y =>
    match decEq x y with
    | .isTrue h => .isTrue (congrArg _ h)
    | .isFalse h => .isFalse (fun hh => h (Except.error.inj hh))
  | .ok _, .error _ => .isFalse (fun hh => Except.noConfusion hh)
  | .error _, .ok _ => .isFalse (fun hh => Except.noConfusion hh)

/-- A remote file id: a (byte/char) string. -/
abbrev Id := List Char

/-- Durable keys.  Each constructor corresponds to one of the four-character
tag prefixes of the Go key helpers (`internalKey`, `fileIdToInodeKey`,
`inodeToFileIdKey`, `fileKey`, `rootKey`, `childKey`). -/
inductive Key where
  | intk (s : String)
  | f2i (x : Id)
  | i2f (n : Nat)
  | fid (x : Id)
  | rtf (x : Id)
  | kid (payload : Id)
deriving DecidableEq, Repr

/-- A parent reference of a Drive file (`gdrive.ParentReference`): the parent
id and the `IsRoot` flag. -/
structure ParentRef where
  pid : Id
  isRoot : Bool
deriving DecidableEq, Repr

/-- The `Labels` of a Drive file (only the fields the code reads). -/
structure Labels where
  trashed : Bool
  hidden : Bool
deriving DecidableEq, Repr

/-- A `gdrive.File` restricted to the fields `drive_db` reads. -/
structure GFile where
  id : Id
  parents : List ParentRef
  labels : Labels
deriving DecidableEq, Repr

/-- The persisted `CheckPoint` structure. -/
structure CheckPoint where
  lastChangeId : Int
  lastInode : Nat
deriving DecidableEq, Repr

/-- Durable values.  The Go code JSON-encodes these; encoding is injective and
decoding is its inverse, so we store the decoded form.  A value of the wrong
shape under a key decodes to an error in the code, which each reader handles
(modelled by the catch-all `match` arms below). -/
inductive Val where
  | vInode (n : Nat)
  | vId (x : Id)
  | vFile (f : GFile)
  | vCpt (c : CheckPoint)
  | vEmpty
deriving DecidableEq, Repr

/-- The durable LevelDB contents: an association list of key/value pairs. -/
abbrev Store := List (Key × Val)

/-- `db.Get`: the value stored under a key, if any. -/
def sget : Store → Key → Option Val
  | [], _ => none
  | (a, w) :: rest, k => if a = k then some w else sget rest k

/-- `db.Put`: replace in place if present, else append. -/
def sput : Store → Key → Val → Store
  | [], k, v => [(k, v)]
  | (a, w) :: rest, k, v =>
    if a = k then (k, v) :: rest else (a, w) :: sput rest k v

/-- `db.Delete`. -/
def sdel : Store → Key → Store
  | [], _ => []
  | (a, w) :: rest, k =>
    if a = k then sdel rest k else (a, w) :: sdel rest k

/-- One operation of a LevelDB write batch. -/
inductive BOp where
  | bput (k : Key) (v : Val)
  | bdel (k : Key)
deriving DecidableEq, Repr

/-- The key an operation touches. -/
def BOp.key : BOp → Key
  | .bput k _ => k
  | .bdel k => k

/-- A write batch: operations are applied in order. -/
abbrev Batch := List BOp

/-- Apply a single batch operation. -/
def applyOp (st : Store) : BOp → Store
  | .bput k v => sput st k v
  | .bdel k => sdel st k

/-- `db.Write(batch)`: apply all operations, in order, atomically. -/
def applyB (st : Store) (b : Batch) : Store :=
  b.foldl applyOp st

/-- A schedule of outcomes for `db.Write` calls: the head says whether the
next commit fails.  The empty schedule means all commits succeed. -/
abbrev Sched := List Bool

/-- Consume one schedule entry: `(succeeded, rest)`. -/
def commitStep (sc : Sched) : Bool × Sched :=
  match sc with
  | [] => (true, [])
  | b :: r => (!b, r)

/-- The full database state: the durable store plus the in-memory checkpoint
`d.cpt` (guarded by the mutex in the Go code; we model sequential runs). -/
structure DState where
  store : Store
  cpt : CheckPoint
deriving DecidableEq, Repr

/-- The key under which the checkpoint is persisted (`internalKey("checkpoint")`). -/
def cptKey : Key := .intk "checkpoint"

/-- `writeCheckpoint` with a non-nil batch: append a put of the current
in-memory checkpoint. -/
def writeCheckpointB (d : DState) (b : Batch) : Batch :=
  b ++ [.bput cptKey (.vCpt d.cpt)]

/-- `nextInode`: bumps `cpt.LastInode` in memory and appends the checkpoint
put to the batch; returns the fresh inode number. -/
def nextInode (d : DState) (b : Batch) : Nat × DState × Batch :=
  let c : CheckPoint := { d.cpt with lastInode := d.cpt.lastInode + 1 }
  let d' : DState := { d with cpt := c }
  (c.lastInode, d', writeCheckpointB d' b)

/-- Decoding a stored value as an inode number (`decode` into a `uint64`):
anything but an inode value is a decode error. -/
def decodeInode : Option Val → Option Nat
  | some (.vInode n) => some n
  | _ => none

/-- Decoding a stored value as a file id string. -/
def decodeId : Option Val → Option Id
  | some (.vId x) => some x
  | _ => none

/-- Decoding a stored value as a file entity. -/
def decodeFile : Option Val → Option GFile
  | some (.vFile f) => some f
  | _ => none

/-- Decoding a stored value as a checkpoint. -/
def decodeCpt : Option Val → Option CheckPoint
  | some (.vCpt c) => some c
  | _ => none

/-- `inodeForFileIdImpl`: return the stored forward mapping if it decodes,
else allocate a fresh inode and commit checkpoint + forward + reverse mapping
in one batch.  On a failed commit the durable store is unchanged (but the
in-memory `LastInode` has already been bumped, as in the code). -/
def inodeForFileIdImpl (sc : Sched) (d : DState) (x : Id) :
    Except Unit Nat × DState × Sched :=
  match decodeInode (sget d.store (.f2i x)) with
  | some n => (.ok n, d, sc)
  | none =>
    let r := nextInode d []
    let n := r.1
    let d₁ := r.2.1
    let b := r.2.2 ++ [.bput (.f2i x) (.vInode n), .bput (.i2f n) (.vId x)]
    let cs := commitStep sc
    if cs.1 then
      (.ok n, { d₁ with store := applyB d₁.store b }, cs.2)
    else
      (.error (), d₁, cs.2)

/-- `InodeForFileId`: the public entry point (the singleflight group only
coalesces concurrent calls; sequentially it is the implementation). -/
def InodeForFileId (sc : Sched) (d : DState) (x : Id) :
    Except Unit Nat × DState × Sched :=
  inodeForFileIdImpl sc d x

/-- `FileIdForInode`: pure reverse lookup. -/
def FileIdForInode (d : DState) (n : Nat) : Except Unit Id :=
  match decodeId (sget d.store (.i2f n)) with
  | some x => .ok x
  | none => .error ()

/-- `FileById`: pure entity lookup. -/
def FileById (d : DState) (x : Id) : Except Unit GFile :=
  match decodeFile (sget d.store (.fid x)) with
  | some f => .ok f
  | none => .error ()

/-- The payloads of all `kid:`-tagged keys whose payload has `p` as a prefix:
the prefix iterator `util.BytesPrefix(childKey(p))`.  Note the Go code does
not append a separator after `p`. -/
def kidScan (st : Store) (p : Id) : List Id :=
  st.filterMap (fun kv =>
    match kv.1 with
    | .kid s => if p.isPrefixOf s then some s else none
    | _ => none)

/-- The ids of all `fid:` keys: `AllFileIds`. -/
def AllFileIds (st : Store) : List Id :=
  st.filterMap (fun kv => match kv.1 with | .fid x => some x | _ => none)

/-- The ids of all `rtf:` keys: `RootFileIds`. -/
def RootFileIds (st : Store) : List Id :=
  st.filterMap (fun kv => match kv.1 with | .rtf x => some x | _ => none)

/-- Whether a scanned `kid:` payload points at a live child: the extracted
child id (`pidcid[len(fileId)+1:]` in the Go code) has a `fid:` entity. -/
def cfiKeep (st : Store) (p : Id) (s : Id) : Bool :=
  (sget st (.fid (s.drop (p.length + 1)))).isSome

/-- The batched deletes `ChildFileIds` accumulates: one delete per scanned
payload whose extracted child has no entity. -/
def cfiDels (st : Store) (p : Id) : Batch :=
  ((kidScan st p).filter (fun s => !(cfiKeep st p s))).map (fun s => .bdel (.kid s))

/-- `ChildFileIds`: scan `kid:` keys with prefix `p` (no separator appended!),
keep children whose `fid:` entity exists, batch-delete the rest.  A failed
batch write is only logged; the ids are returned either way. -/
def ChildFileIds (sc : Sched) (st : Store) (p : Id) :
    List Id × Store × Sched :=
  let ids := ((kidScan st p).filter (cfiKeep st p)).map (fun s => s.drop (p.length + 1))
  if (cfiDels st p).isEmpty then
    (ids, st, sc)
  else
    let cs := commitStep sc
    if cs.1 then (ids, applyB st (cfiDels st p), cs.2) else (ids, st, cs.2)

/-- The loop of `RootInodes`: look up the inode of each root id, silently
skipping ids whose lookup fails. -/
def rootLoop (sc : Sched) (d : DState) : List Id → List Nat × DState × Sched
  | [] => ([], d, sc)
  | f :: rest =>
    match InodeForFileId sc d f with
    | (.ok n, d', sc') =>
      let r := rootLoop sc' d' rest
      (n :: r.1, r.2.1, r.2.2)
    | (.error _, d', sc') => rootLoop sc' d' rest

/-- `RootInodes`: serve from the LRU sentinel if cached, else derive from
`RootFileIds`, cache, and return.  The cache is modelled as the optional
content of the `"rootInodes"` sentinel slot. -/
def RootInodes (sc : Sched) (cache : Option (List Nat)) (d : DState) :
    Except Unit (List Nat) × Option (List Nat) × DState × Sched :=
  match cache with
  | some l => (.ok l, some l, d, sc)
  | none =>
    let r := rootLoop sc d (RootFileIds d.store)
    (.ok r.1, some r.1, r.2.1, r.2.2)

/-- `RemoveFileById`: batch-delete the entity, forward mapping and root ref,
every `kid:` key with (no-separator) prefix `fileId`, and the parents' child
refs; commit the batch; then look the file's inode up again (which, the
forward mapping having just been deleted, re-allocates a fresh inode).  The
error of that final lookup is swallowed. -/
def RemoveFileById (sc : Sched) (d : DState) (x : Id) (b : Batch) :
    Except Unit Unit × Batch × DState × Sched :=
  let b₁ := b ++ [.bdel (.fid x), .bdel (.f2i x), .bdel (.rtf x)]
      ++ (kidScan d.store x).map (fun s => .bdel (.kid s))
  let b₂ := b₁ ++
    (match FileById d x with
     | .ok f => f.parents.map (fun pr => .bdel (.kid (pr.pid ++ ':' :: x)))
     | .error _ => [])
  let cs := commitStep sc
  if cs.1 then
    let d₁ : DState := { d with store := applyB d.store b₂ }
    let r := InodeForFileId cs.2 d₁ x
    (.ok (), b₂, r.2.1, r.2.2)
  else
    (.error (), b₂, d, cs.2)

/-- `UpdateFile` with a caller-supplied batch (the only path `processChange`
uses): ensure an inode exists (commits on its own if it allocates), then
append the entity put and one root/child index put per parent reference. -/
def UpdateFile (sc : Sched) (d : DState) (b : Batch) (f : GFile) :
    Except Unit Unit × Batch × DState × Sched :=
  match InodeForFileId sc d f.id with
  | (.error _, d', sc') => (.error (), b, d', sc')
  | (.ok _, d', sc') =>
    let b₁ := b ++ [.bput (.fid f.id) (.vFile f)]
    let b₂ := b₁ ++ f.parents.map (fun pr =>
      if pr.isRoot then .bput (.rtf f.id) .vEmpty
      else .bput (.kid (pr.pid ++ ':' :: f.id)) .vEmpty)
    (.ok (), b₂, d', sc')

/-- One item of a change list (`gdrive.Change` restricted to the fields
read): the change id, the file id, the `Deleted` flag and the file snapshot. -/
structure Change where
  id : Int
  fileId : Id
  deleted : Bool
  file : GFile
deriving DecidableEq, Repr

/-- The applier treats an item as deleting when it is deleted, trashed or
hidden. -/
def deleting (i : Change) : Bool :=
  i.deleted || i.file.labels.trashed || i.file.labels.hidden

/-- A change page (`gdrive.ChangeList` restricted to the fields read). -/
structure ChangeList where
  items : List Change
  largestChangeId : Int
deriving DecidableEq, Repr

/-- The per-item loop of `processChange`: reset the batch, ensure an inode
(for the LRU wipe), remove or update the file, advance the in-memory
`LastChangeID`, append the checkpoint put, and commit.  Errors of the
remove/update calls are swallowed; a failed commit aborts the page. -/
def procItems (sc : Sched) (d : DState) : List Change → Except Unit Unit × DState × Sched
  | [] => (.ok (), d, sc)
  | i :: rest =>
    let r₀ := InodeForFileId sc d i.fileId
    let d₁ := r₀.2.1
    let sc₁ := r₀.2.2
    let r₁ :=
      if deleting i then
        let r := RemoveFileById sc₁ d₁ i.fileId []
        (r.2.1, r.2.2.1, r.2.2.2)
      else
        let r := UpdateFile sc₁ d₁ [] i.file
        (r.2.1, r.2.2.1, r.2.2.2)
    let d₂ := r₁.2.1
    let d₃ : DState := { d₂ with cpt := { d₂.cpt with lastChangeId := i.id } }
    let b₃ := writeCheckpointB d₃ r₁.1
    let cs := commitStep r₁.2.2
    if cs.1 then
      procItems cs.2 { d₃ with store := applyB d₃.store b₃ } rest
    else
      (.error (), d₃, cs.2)

/-- `processChange`: apply a change list; report whether the synced signal
was broadcast.  A page with no items broadcasts iff the in-memory
`lastChangeId` has reached the page's `LargestChangeId`; otherwise items are
applied in order and the broadcast check runs only after a fully successful
page. -/
def processChange (sc : Sched) (d : DState) (c : ChangeList) :
    Except Unit Unit × Bool × DState × Sched :=
  if c.items.isEmpty then
    (.ok (), decide (d.cpt.lastChangeId ≥ c.largestChangeId), d, sc)
  else
    match procItems sc d c.items with
    | (.ok _, d', sc') =>
      (.ok (), decide (d'.cpt.lastChangeId ≥ c.largestChangeId), d', sc')
    | (.error e, d', sc') => (.error e, false, d', sc')

/-- The start-change id the next poll will request (`readChanges`): the
in-memory `lastChangeId + 1` when positive, else the beginning. -/
def nextPollStart (d : DState) : Option Int :=
  if d.cpt.lastChangeId > 0 then some (d.cpt.lastChangeId + 1) else none

/-- The checkpoint currently persisted in the durable store, if any. -/
def persistedCpt (d : DState) : Option CheckPoint :=
  decodeCpt (sget d.store cptKey)

/-! ## Derived runs and helper predicates -/

/-- The operations a client can drive the database with: an inode allocation
(`InodeForFileId`), a file removal (`RemoveFileById` with a fresh batch, as
`RemoveFile` does), and a change-page application (`processChange`). -/
inductive Op where
  | alloc (x : Id)
  | remove (x : Id)
  | page (c : ChangeList)

/-- Run one operation, keeping only the state and the remaining schedule. -/
def runOp (sc : Sched) (d : DState) : Op → DState × Sched
  | .alloc x =>
    let r := InodeForFileId sc d x
    (r.2.1, r.2.2)
  | .remove x =>
    let r := RemoveFileById sc d x []
    (r.2.2.1, r.2.2.2)
  | .page c =>
    let r := processChange sc d c
    (r.2.2.1, r.2.2.2)

/-- Run a sequence of operations. -/
def runOps (sc : Sched) (d : DState) : List Op → DState × Sched
  | [] => (d, sc)
  | op :: rest =>
    let r := runOp sc d op
    runOps r.2 r.1 rest

/-- Every reverse mapping key `i2f:n` in the store satisfies
`n ≤ cpt.LastInode`: the allocator's high-water invariant. -/
def inodesBounded (d : DState) : Bool :=
  d.store.all (fun p =>
    match p.1 with
    | .i2f n => n ≤ d.cpt.lastInode
    | _ => true)

/-- Fold `ChildFileIds` (with all commits succeeding) over a list of parent
ids, keeping only the store. -/
def runCFI (st : Store) (ps : List Id) : Store :=
  ps.foldl (fun s p => (ChildFileIds [] s p).2.1) st

/-- A change list is upsert-only when no item is deleting. -/
def upsertOnly (l : List Change) : Bool :=
  l.all (fun i => !(deleting i))

/-- The state reached by a pure (all commits succeed) `procItems` run. -/
def procItemsD (d : DState) (l : List Change) : DState :=
  (procItems [] d l).2.1

/-- The state reached by a pure `processChange` run. -/
def pageState (d : DState) (c : ChangeList) : DState :=
  (processChange [] d c).2.2.1

/-- The state component of a pure `InodeForFileId` call. -/
def ifiS (d : DState) (x : Id) : DState :=
  (InodeForFileId [] d x).2.1

/-- One pure non-deleting item step of `processChange`: ensure an inode for
the change's file id, run `UpdateFile`, advance the in-memory
`LastChangeID`, and commit the batch plus the checkpoint put. -/
def stepU (d : DState) (i : Change) : DState :=
  let d₁ := ifiS d i.fileId
  let r₁ := UpdateFile [] d₁ [] i.file
  let d₂ := r₁.2.2.1
  let d₃ : DState := { d₂ with cpt := { d₂.cpt with lastChangeId := i.id } }
  { d₃ with store := applyB d₃.store (writeCheckpointB d₃ r₁.2.1) }

/-- The root/child index key one parent reference of file `x` maps to. -/
def pkey (pr : ParentRef) (x : Id) : Key :=
  if pr.isRoot then .rtf x else .kid (pr.pid ++ ':' :: x)

/-- The batch a non-deleting item contributes when no allocation is needed:
the entity put, the per-parent index puts, and the checkpoint put (with
in-memory `LastInode` equal to `L`). -/
def upsertWrites (i : Change) (L : Nat) : Batch :=
  .bput (.fid i.file.id) (.vFile i.file)
    :: i.file.parents.map (fun pr => .bput (pkey pr i.file.id) .vEmpty)
    ++ [.bput cptKey (.vCpt { lastChangeId := i.id, lastInode := L })]

/-- All batches of an upsert-only replay, in item order. -/
def replayWrites (l : List Change) (L : Nat) : Batch :=
  (l.map (upsertWrites · L)).flatten

/-- The last item of `l` whose snapshot's file id is `x`, if any. -/
def lastChangeFor (l : List Change) (x : Id) : Option Change :=
  l.reverse.find? (fun i => i.file.id = x)

/-- The change id of the last item of `l`, if any. -/
def lastIdOf (l : List Change) : Option Int :=
  l.getLast?.map (·.id)

/-- The keys an upsert-only item list writes (beyond identity mappings). -/
def writesKey (l : List Change) : Key → Prop
  | .fid x => ∃ i ∈ l, i.file.id = x
  | .rtf x => ∃ i ∈ l, ∃ pr ∈ i.file.parents, pr.isRoot = true ∧ i.file.id = x
  | .kid s => ∃ i ∈ l, ∃ pr ∈ i.file.parents, pr.isRoot = false ∧ s = pr.pid ++ ':' :: i.file.id
  | .intk s => l ≠ [] ∧ s = "checkpoint"
  | _ => False

/-- Every file id an item list touches (both the change's file id and the
snapshot's id) has a decodable forward mapping. -/
def allocatedAll (d : DState) (l : List Change) : Prop :=
  ∀ i ∈ l, (∃ n, decodeInode (sget d.store (.f2i i.fileId)) = some n)
    ∧ (∃ n, decodeInode (sget d.store (.f2i i.file.id)) = some n)

/-- The change id of the last item, with a default. -/
def lastIdD (l : List Change) (dflt : Int) : Int :=
  (lastIdOf l).getD dflt

/-- The keys one upsert item writes. -/
def touchKey (i : Change) : Key → Prop
  | .fid x => i.file.id = x
  | .rtf x => ∃ pr ∈ i.file.parents, pr.isRoot = true ∧ i.file.id = x
  | .kid s => ∃ pr ∈ i.file.parents, pr.isRoot = false ∧ s = pr.pid ++ ':' :: i.file.id
  | .intk s => s = "checkpoint"
  | _ => False

/-- Two database states with the same durable contents (pointwise) and the
same in-memory checkpoint. -/
def DEquiv (d₁ d₂ : DState) : Prop :=
  (∀ k, sget d₁.store k = sget d₂.store k) ∧ d₁.cpt = d₂.cpt

/-- The batch an inode allocation commits: the updated checkpoint, the
forward mapping, and the reverse mapping. -/
def allocBatch (d : DState) (x : Id) : Batch :=
  [ .bput cptKey (.vCpt { lastChangeId := d.cpt.lastChangeId, lastInode := d.cpt.lastInode + 1 }),
    .bput (.f2i x) (.vInode (d.cpt.lastInode + 1)),
    .bput (.i2f (d.cpt.lastInode + 1)) (.vId x) ]

/-- No `kid:` payload in the store is equal to a scanned parent id of which
it is an extension: exactly the condition under which the Go slice
`pidcid[len(fileId)+1:]` in `ChildFileIds` is in bounds for every scanned
key (otherwise the Go code panics and no call returns). -/
def scanSafe (st : Store) (ps : List Id) : Bool :=
  ps.all (fun q => st.all (fun kv =>
    match kv.1 with
    | .kid s => !(q.isPrefixOf s) || decide (q.length < s.length)
    | _ => true))

/-- The guarantees one database step gives for claim C6, assuming the
allocator's high-water invariant holds before the step: the in-memory
`last_inode` does not decrease, every reverse mapping entry keeps its value,
and the invariant still holds afterwards. -/
def StepOK (d d' : DState) : Prop :=
  inodesBounded d = true →
    d.cpt.lastInode ≤ d'.cpt.lastInode
    ∧ (∀ n v, sget d.store (.i2f n) = some v → sget d'.store (.i2f n) = some v)
    ∧ inodesBounded d' = true

/-! ## Concrete example inputs used by counterexamples and witnesses -/

/-- A concrete fresh database state: empty store, checkpoint at the inode
floor. -/
def exD0 : DState := { store := [], cpt := { lastChangeId := 0, lastInode := 1000 } }

/-- A concrete file id. -/
def exA : Id := ['a']

/-- A concrete file at the root of nothing (no parents). -/
def exFA : GFile := { id := exA, parents := [], labels := { trashed := false, hidden := false } }

/-- A deleting change for `exA`. -/
def exDelItem : Change := { id := 5, fileId := exA, deleted := true, file := exFA }

/-- A page holding only the deleting change for `exA`. -/
def exDelPage : ChangeList := { items := [exDelItem], largestChangeId := 5 }

/-- An upsert change for `exA`. -/
def exUpItem : Change := { id := 7, fileId := exA, deleted := false, file := exFA }

/-- A page holding only the upsert change for `exA`. -/
def exUpPage : ChangeList := { items := [exUpItem], largestChangeId := 7 }

/-- The state after allocating an inode for `exA` on the fresh database. -/
def exD1 : DState := (InodeForFileId [] exD0 exA).2.1

/-- The state after additionally applying the deleting page for `exA`. -/
def exD2 : DState := (processChange [] exD1 exDelPage).2.2.1

/-- A store holding entities `AB` and `C` and the child index entry
`kid:AB:C` (child `C` of parent `AB`). -/
def exStAB : Store :=
  [ (.fid ['A', 'B'], .vFile { id := ['A', 'B'], parents := [], labels := { trashed := false, hidden := false } }),
    (.fid ['C'], .vFile { id := ['C'], parents := [], labels := { trashed := false, hidden := false } }),
    (.kid ['A', 'B', ':', 'C'], .vEmpty) ]

/-- The state reached from fresh by a single-upsert page whose item commit
fails (the schedule fails the first `db.Write`, which is the item commit
because `exA` is pre-allocated in `exD1`). -/
def exD3 : DState := (processChange [true] exD1 exUpPage).2.2.1

/-- An empty page with a largest change id above the persisted checkpoint of
`exD3` but below its in-memory checkpoint. -/
def exEmptyPage : ChangeList := { items := [], largestChangeId := 3 }

end DriveDB


/-! ## Store toolkit -/

namespace DriveDB

theorem sget_cons (a : Key) (w : Val) (rest : Store) (k : Key) :
    sget ((a, w) :: rest) k = if a = k then some w else sget rest k := rfl

theorem sget_sput_self (st : Store) (k : Key) (v : Val) :
    sget (sput st k v) k = some v := by
  induction st with
  | nil => simp [sput, sget]
  | cons p rest ih =>
    obtain ⟨a, w⟩ := p
    by_cases h : a = k
    · simp [sput, h, sget]
    · simp [sput, h, sget, ih]

theorem sget_sput_ne (st : Store) (k k' : Key) (v : Val) (h : k' ≠ k) :
    sget (sput st k v) k' = sget st k' := by
  have h' : ¬ (k = k') := fun hh => h hh.symm
  induction st with
  | nil => simp [sput, sget, h']
  | cons p rest ih =>
    obtain ⟨a, w⟩ := p
    by_cases ha : a = k
    · subst ha
      simp [sput, sget, h']
    · simp [sput, ha, sget, ih]

theorem sget_sdel_self (st : Store) (k : Key) :
    sget (sdel st k) k = none := by
  induction st with
  | nil => simp [sdel, sget]
  | cons p rest ih =>
    obtain ⟨a, w⟩ := p
    by_cases h : a = k
    · simp [sdel, h, ih]
    · simp [sdel, h, sget, h, ih]

theorem sget_sdel_ne (st : Store) (k k' : Key) (h : k' ≠ k) :
    sget (sdel st k) k' = sget st k' := by
  induction st with
  | nil => simp [sdel]
  | cons p rest ih =>
    obtain ⟨a, w⟩ := p
    by_cases ha : a = k
    · subst ha
      have h' : ¬ (a = k') := fun hh => h hh.symm
      simp [sdel, sget, h', ih]
    · simp [sdel, ha, sget, ih]

theorem sget_applyOp_ne (st : Store) (op : BOp) (k : Key) (h : op.key ≠ k) :
    sget (applyOp st op) k = sget st k := by
  cases op with
  | bput k0 v => exact sget_sput_ne st k0 k v (fun hh => h hh.symm)
  | bdel k0 => exact sget_sdel_ne st k0 k (fun hh => h hh.symm)

theorem applyB_nil (st : Store) : applyB st [] = st := rfl

theorem applyB_cons (st : Store) (op : BOp) (b : Batch) :
    applyB st (op :: b) = applyB (applyOp st op) b := rfl

theorem applyB_append (st : Store) (b₁ b₂ : Batch) :
    applyB st (b₁ ++ b₂) = applyB (applyB st b₁) b₂ :=
  List.foldl_append ..

theorem sget_applyB_frame (b : Batch) (st : Store) (k : Key)
    (h : ∀ op ∈ b, op.key ≠ k) :
    sget (applyB st b) k = sget st k := by
  induction b generalizing st with
  | nil => rfl
  | cons op rest ih =>
    rw [applyB_cons, ih _ (fun o ho => h o (List.mem_cons_of_mem _ ho)),
      sget_applyOp_ne st op k (h op (List.mem_cons_self _ _))]

theorem sget_some_mem (st : Store) (k : Key) (v : Val)
    (h : sget st k = some v) : (k, v) ∈ st := by
  induction st with
  | nil => simp [sget] at h
  | cons p rest ih =>
    obtain ⟨a, w⟩ := p
    by_cases ha : a = k
    · subst ha
      simp [sget] at h
      simp [h]
    · simp [sget, ha] at h
      exact List.mem_cons_of_mem _ (ih h)

theorem mem_sput (st : Store) (k : Key) (v : Val) (p : Key × Val)
    (h : p ∈ sput st k v) : p = (k, v) ∨ p ∈ st := by
  induction st with
  | nil =>
    simp [sput] at h
    exact Or.inl h
  | cons q rest ih =>
    obtain ⟨a, w⟩ := q
    by_cases ha : a = k
    · simp [sput, ha] at h
      rcases h with h | h
      · exact Or.inl h
      · exact Or.inr (List.mem_cons_of_mem _ h)
    · simp [sput, ha] at h
      rcases h with h | h
      · exact Or.inr (by simp [h])
      · rcases ih h with h' | h'
        · exact Or.inl h'
        · exact Or.inr (List.mem_cons_of_mem _ h')

theorem mem_sdel (st : Store) (k : Key) (p : Key × Val)
    (h : p ∈ sdel st k) : p ∈ st := by
  induction st with
  | nil => simp [sdel] at h
  | cons q rest ih =>
    obtain ⟨a, w⟩ := q
    by_cases ha : a = k
    · simp [sdel, ha] at h
      exact List.mem_cons_of_mem _ (ih h)
    · simp [sdel, ha] at h
      rcases h with h | h
      · simp [h]
      · exact List.mem_cons_of_mem _ (ih h)

theorem mem_applyOp (st : Store) (op : BOp) (p : Key × Val)
    (h : p ∈ applyOp st op) : p ∈ st ∨ op = .bput p.1 p.2 := by
  cases op with
  | bput k v =>
    rcases mem_sput st k v p h with h' | h'
    · right
      rw [h']
    · exact Or.inl h'
  | bdel k => exact Or.inl (mem_sdel st k p h)

theorem mem_applyB (b : Batch) (st : Store) (p : Key × Val)
    (h : p ∈ applyB st b) : p ∈ st ∨ (BOp.bput p.1 p.2) ∈ b := by
  induction b generalizing st with
  | nil => exact Or.inl h
  | cons op rest ih =>
    rw [applyB_cons] at h
    rcases ih _ h with h' | h'
    · rcases mem_applyOp st op p h' with h'' | h''
      · exact Or.inl h''
      · exact Or.inr (by simp [← h''])
    · exact Or.inr (List.mem_cons_of_mem _ h')

theorem sget_applyB_of_dels (b : Batch) (st : Store) (k : Key) (v : Val)
    (hd : ∀ op ∈ b, ∃ k0, op = .bdel k0)
    (h : sget (applyB st b) k = some v) : sget st k = some v := by
  induction b generalizing st with
  | nil => exact h
  | cons op rest ih =>
    rw [applyB_cons] at h
    obtain ⟨k0, hk0⟩ := hd op (List.mem_cons_self _ _)
    subst hk0
    have h' := ih _ (fun o ho => hd o (List.mem_cons_of_mem _ ho)) h
    by_cases hk : k = k0
    · subst hk
      rw [show applyOp st (BOp.bdel k) = sdel st k from rfl, sget_sdel_self] at h'
      exact absurd h' (by simp)
    · rwa [show applyOp st (BOp.bdel k0) = sdel st k0 from rfl,
        sget_sdel_ne st k0 k hk] at h'

theorem sget_applyB_dels_stay_none (b : Batch) (st : Store) (k : Key)
    (hd : ∀ op ∈ b, ∃ k0, op = .bdel k0)
    (h : sget st k = none) : sget (applyB st b) k = none := by
  rcases hg : sget (applyB st b) k with _ | v
  · rfl
  · have h' := sget_applyB_of_dels b st k v hd hg
    rw [h] at h'
    cases h'

theorem sget_applyB_dels_none (b : Batch) (st : Store) (k : Key)
    (hd : ∀ op ∈ b, ∃ k0, op = .bdel k0)
    (hm : (BOp.bdel k) ∈ b) : sget (applyB st b) k = none := by
  induction b generalizing st with
  | nil => simp at hm
  | cons op rest ih =>
    rw [applyB_cons]
    rcases List.mem_cons.1 hm with h0 | h0
    · rw [← h0]
      exact sget_applyB_dels_stay_none rest (sdel st k) k
        (fun o ho => hd o (List.mem_cons_of_mem _ ho)) (sget_sdel_self st k)
    · exact ih _ (fun o ho => hd o (List.mem_cons_of_mem _ ho)) h0

end DriveDB

/-! ## Allocator lemmas -/

namespace DriveDB

theorem decodeInode_eq_some (o : Option Val) (n : Nat) :
    decodeInode o = some n ↔ o = some (.vInode n) := by
  cases o with
  | none => simp [decodeInode]
  | some v => cases v <;> simp [decodeInode]

theorem commitStep_nil : commitStep [] = (true, []) := rfl

theorem ifi_hit (sc : Sched) (d : DState) (x : Id) (n : Nat)
    (h : decodeInode (sget d.store (.f2i x)) = some n) :
    InodeForFileId sc d x = (.ok n, d, sc) := by
  unfold InodeForFileId inodeForFileIdImpl
  rw [h]

theorem ifi_miss_ok (sc : Sched) (d : DState) (x : Id)
    (h : decodeInode (sget d.store (.f2i x)) = none)
    (hc : (commitStep sc).1 = true) :
    InodeForFileId sc d x =
      (.ok (d.cpt.lastInode + 1),
       { store := applyB d.store (allocBatch d x),
         cpt := { lastChangeId := d.cpt.lastChangeId, lastInode := d.cpt.lastInode + 1 } },
       (commitStep sc).2) := by
  unfold InodeForFileId inodeForFileIdImpl
  rw [h]
  simp only [nextInode, writeCheckpointB, hc, if_true, allocBatch]
  rfl

theorem ifi_miss_fail (sc : Sched) (d : DState) (x : Id)
    (h : decodeInode (sget d.store (.f2i x)) = none)
    (hc : (commitStep sc).1 = false) :
    InodeForFileId sc d x =
      (.error (),
       { d with cpt := { d.cpt with lastInode := d.cpt.lastInode + 1 } },
       (commitStep sc).2) := by
  unfold InodeForFileId inodeForFileIdImpl
  rw [h]
  simp only [nextInode, writeCheckpointB, hc, Bool.false_eq_true, if_false]

theorem ifi_lastChangeId (sc : Sched) (d : DState) (x : Id) :
    (InodeForFileId sc d x).2.1.cpt.lastChangeId = d.cpt.lastChangeId := by
  rcases hg : decodeInode (sget d.store (.f2i x)) with _ | n
  · rcases hc : (commitStep sc).1 with _ | _
    · rw [ifi_miss_fail sc d x hg hc]
    · rw [ifi_miss_ok sc d x hg hc]
  · rw [ifi_hit sc d x n hg]

theorem ifi_lastInode_mono (sc : Sched) (d : DState) (x : Id) :
    d.cpt.lastInode ≤ (InodeForFileId sc d x).2.1.cpt.lastInode := by
  rcases hg : decodeInode (sget d.store (.f2i x)) with _ | n
  · rcases hc : (commitStep sc).1 with _ | _
    · rw [ifi_miss_fail sc d x hg hc]
      exact Nat.le_succ _
    · rw [ifi_miss_ok sc d x hg hc]
      exact Nat.le_succ _
  · rw [ifi_hit sc d x n hg]

end DriveDB

/-! ## Claims C1, C2, C3 -/

namespace DriveDB

/-- Claim C1, counterexample: on a fresh database, `inode_for_id("a")` is
observed as `1001`; after the change applier processes a deleting change for
`"a"`, a subsequent `inode_for_id("a")` returns `1003` (the removal deleted
the forward mapping, re-allocated `1002`, and the re-committed batch deleted
that again), not the originally observed `1001`. -/
theorem C1_counterexample :
    (InodeForFileId [] exD0 exA).1 = .ok 1001
    ∧ exD1 = (InodeForFileId [] exD0 exA).2.1
    ∧ exD2 = (processChange [] exD1 exDelPage).2.2.1
    ∧ (processChange [] exD1 exDelPage).1 = .ok ()
    ∧ (InodeForFileId [] exD2 exA).1 = .ok 1003
    ∧ Except.ok (ε := Unit) 1003 ≠ .ok 1001 := by
  refine ⟨by decide, rfl, rfl, by decide, by decide, by decide⟩

/-- Claim C1 (corrected): as long as the forward mapping `f2i:x` is present
and decodes, every `inode_for_id(x)` returns the stored inode and leaves the
state (and hence every subsequent call) unchanged; but a deleting change
removes the forward mapping, after which `inode_for_id(x)` allocates a fresh
inode (see the counterexample). -/
theorem C1_amended (sc sc' : Sched) (d : DState) (x : Id) (n : Nat)
    (h : sget d.store (.f2i x) = some (.vInode n)) :
    InodeForFileId sc d x = (.ok n, d, sc)
    ∧ (InodeForFileId sc' ((InodeForFileId sc d x).2.1) x).1 = .ok n := by
  have hd : decodeInode (sget d.store (.f2i x)) = some n :=
    (decodeInode_eq_some _ n).2 h
  have h1 := ifi_hit sc d x n hd
  refine ⟨h1, ?_⟩
  rw [h1]
  rw [ifi_hit sc' d x n hd]

/-- Claim C1, witness for the amended theorem at a concrete state. -/
theorem C1_witness :
    sget exD1.store (.f2i exA) = some (.vInode 1001)
    ∧ InodeForFileId [] exD1 exA = (.ok 1001, exD1, [])
    ∧ (InodeForFileId [] ((InodeForFileId [] exD1 exA).2.1) exA).1 = .ok 1001 := by
  have h := C1_amended [] [] exD1 exA 1001 (by decide)
  exact ⟨by decide, h.1, h.2⟩

/-- Claim C2 (code bug), evaluation at the failing input: the store holds
entities `AB` and `C` and the valid child-index key `kid:AB:C`.
`ChildFileIds("A")` scans the prefix `kid:A` — `childKey` appends no
separator — so it scans `kid:AB:C`, mis-extracts the child id as `":C"`,
finds no entity `fid::C`, and deletes parent `AB`'s valid index entry, even
though the child entity `fid:C` exists.  The claim (and the spec) say keys of
a different parent whose id merely has `"A"` as a string prefix are neither
returned nor deleted. -/
theorem C2_eval :
    (ChildFileIds [] exStAB ['A']).1 = []
    ∧ sget exStAB (.kid ['A', 'B', ':', 'C']) = some .vEmpty
    ∧ (sget exStAB (.fid ['C'])).isSome = true
    ∧ sget (ChildFileIds [] exStAB ['A']).2.1 (.kid ['A', 'B', ':', 'C']) = none := by
  refine ⟨by decide, by decide, by decide, by decide⟩

/-- Claim C3, counterexample: from `exD1` (where `"a"` is allocated), a page
with one upsert item of change id 7 whose batch commit fails leaves the
persisted checkpoint at `last_change_id = 0`, yet the in-memory
`last_change_id` has been advanced to 7 before the commit, so the next poll
requests changes starting from 8 — not from the last successfully persisted
`last_change_id + 1 = 1`. -/
theorem C3_counterexample :
    (processChange [true] exD1 exUpPage).1 = .error ()
    ∧ exD3 = (processChange [true] exD1 exUpPage).2.2.1
    ∧ exD3.cpt.lastChangeId = 7
    ∧ persistedCpt exD3 = some { lastChangeId := 0, lastInode := 1001 }
    ∧ nextPollStart exD3 = some 8
    ∧ some (8 : Int) ≠ some ((0 : Int) + 1) := by
  refine ⟨by decide, rfl, by decide, by decide, by decide, by decide⟩

/-- Claim C3 (corrected): when the batch commit for a change item fails, the
page aborts with the error and the durable store is untouched by that commit;
but the in-memory `last_change_id` was already advanced to the failed item's
change id before the commit, so the next poll requests changes starting from
that (unpersisted) id + 1 rather than from the last successfully persisted
`last_change_id + 1`.  (Stated for a single-item page whose ids are already
allocated, so the failing schedule entry is consumed by the item commit.) -/
theorem C3_amended (d : DState) (i : Change) (L : Int) (n₁ n₂ : Nat)
    (h1 : sget d.store (.f2i i.fileId) = some (.vInode n₁))
    (h2 : sget d.store (.f2i i.file.id) = some (.vInode n₂))
    (hnd : deleting i = false) :
    (processChange [true] d { items := [i], largestChangeId := L }).1 = .error ()
    ∧ (processChange [true] d { items := [i], largestChangeId := L }).2.2.1.store = d.store
    ∧ (processChange [true] d { items := [i], largestChangeId := L }).2.2.1.cpt.lastChangeId = i.id
    ∧ nextPollStart (processChange [true] d { items := [i], largestChangeId := L }).2.2.1
        = (if i.id > 0 then some (i.id + 1) else none) := by
  have hd1 : decodeInode (sget d.store (.f2i i.fileId)) = some n₁ :=
    (decodeInode_eq_some _ n₁).2 h1
  have hd2 : decodeInode (sget d.store (.f2i i.file.id)) = some n₂ :=
    (decodeInode_eq_some _ n₂).2 h2
  have hu : UpdateFile [true] d [] i.file
      = (.ok (), [] ++ [.bput (.fid i.file.id) (.vFile i.file)]
          ++ i.file.parents.map (fun pr =>
            if pr.isRoot then .bput (.rtf i.file.id) .vEmpty
            else .bput (.kid (pr.pid ++ ':' :: i.file.id)) .vEmpty), d, [true]) := by
    unfold UpdateFile
    rw [ifi_hit [true] d i.file.id n₂ hd2]
  have hp : procItems [true] d [i]
      = (.error (), { d with cpt := { d.cpt with lastChangeId := i.id } }, []) := by
    unfold procItems
    rw [ifi_hit [true] d i.fileId n₁ hd1]
    simp only [hnd, Bool.false_eq_true, if_false, hu, commitStep]
    rfl
  have hpage : processChange [true] d { items := [i], largestChangeId := L }
      = (.error (), false, { d with cpt := { d.cpt with lastChangeId := i.id } }, []) := by
    unfold processChange
    simp only [List.isEmpty_cons, hp]
    rfl
  rw [hpage]
  refine ⟨rfl, rfl, rfl, ?_⟩
  simp [nextPollStart]

end DriveDB

/-! ## Claims C5, C8, C9, C10 -/

namespace DriveDB

/-- Claim C5 (confirmed): `inode_for_id` returns the stored inode and changes
nothing when the forward mapping is present; otherwise it bumps `last_inode`
and commits the forward mapping, the reverse mapping, and the updated
checkpoint in one atomic batch — after a successful commit all three keys are
persisted, after a failed commit the durable store is unchanged. -/
theorem C5_inode_allocation (sc : Sched) (d : DState) (x : Id) :
    (∀ n, sget d.store (.f2i x) = some (.vInode n) →
      InodeForFileId sc d x = (.ok n, d, sc))
    ∧ (decodeInode (sget d.store (.f2i x)) = none →
        ((commitStep sc).1 = true →
          (InodeForFileId sc d x).1 = .ok (d.cpt.lastInode + 1)
          ∧ sget (InodeForFileId sc d x).2.1.store (.f2i x)
              = some (.vInode (d.cpt.lastInode + 1))
          ∧ sget (InodeForFileId sc d x).2.1.store (.i2f (d.cpt.lastInode + 1))
              = some (.vId x)
          ∧ sget (InodeForFileId sc d x).2.1.store cptKey
              = some (.vCpt { lastChangeId := d.cpt.lastChangeId,
                              lastInode := d.cpt.lastInode + 1 })
          ∧ (InodeForFileId sc d x).2.1.cpt.lastInode = d.cpt.lastInode + 1)
        ∧ ((commitStep sc).1 = false →
          (InodeForFileId sc d x).1 = .error ()
          ∧ (InodeForFileId sc d x).2.1.store = d.store)) := by
  constructor
  · intro n h
    exact ifi_hit sc d x n ((decodeInode_eq_some _ n).2 h)
  · intro h
    constructor
    · intro hc
      rw [ifi_miss_ok sc d x h hc]
      have e : applyB d.store (allocBatch d x) =
          sput (sput (sput d.store cptKey
              (.vCpt { lastChangeId := d.cpt.lastChangeId,
                       lastInode := d.cpt.lastInode + 1 }))
            (.f2i x) (.vInode (d.cpt.lastInode + 1)))
            (.i2f (d.cpt.lastInode + 1)) (.vId x) := rfl
      refine ⟨rfl, ?_, ?_, ?_, rfl⟩
      · rw [e, sget_sput_ne _ _ _ _ (by simp), sget_sput_self]
      · rw [e, sget_sput_self]
      · rw [e, sget_sput_ne _ _ _ _ (by simp [cptKey]),
          sget_sput_ne _ _ _ _ (by simp [cptKey]), sget_sput_self]
    · intro hc
      rw [ifi_miss_fail sc d x h hc]
      exact ⟨rfl, rfl⟩

/-- Claim C5, witness: both branches at concrete inputs — the hit branch on
`exD1` returns the stored inode `1001` unchanged; the allocation branch on
the fresh `exD0` persists all three keys, and with a failing commit leaves
the store unchanged. -/
theorem C5_witness :
    (sget exD1.store (.f2i exA) = some (.vInode 1001)
      ∧ InodeForFileId [] exD1 exA = (.ok 1001, exD1, []))
    ∧ (decodeInode (sget exD0.store (.f2i exA)) = none
      ∧ sget (InodeForFileId [] exD0 exA).2.1.store (.f2i exA) = some (.vInode 1001)
      ∧ sget (InodeForFileId [] exD0 exA).2.1.store (.i2f 1001) = some (.vId exA)
      ∧ sget (InodeForFileId [] exD0 exA).2.1.store cptKey
          = some (.vCpt { lastChangeId := 0, lastInode := 1001 }))
    ∧ ((InodeForFileId [true] exD0 exA).1 = .error ()
      ∧ (InodeForFileId [true] exD0 exA).2.1.store = exD0.store) := by
  have h1 := (C5_inode_allocation [] exD1 exA).1 1001 (by decide)
  have h2 := ((C5_inode_allocation [] exD0 exA).2 (by decide)).1 (by decide)
  have h3 := ((C5_inode_allocation [true] exD0 exA).2 (by decide)).2 (by decide)
  exact ⟨⟨by decide, h1⟩, ⟨by decide, h2.2.1, h2.2.2.1, h2.2.2.2.1⟩, h3⟩

/-- Claim C8 (confirmed): for a RemoteId `x` with an assigned inode `n`
(forward and reverse mappings both stored, invariant I1), the identity
round-trips: `inode_for_id(x)` returns `n` without changing the state,
`id_for_inode(n)` returns `x`, and composing the two in either order is the
identity. -/
theorem C8_identity_roundtrip (sc : Sched) (d : DState) (x : Id) (n : Nat)
    (hf : sget d.store (.f2i x) = some (.vInode n))
    (hr : sget d.store (.i2f n) = some (.vId x)) :
    (InodeForFileId sc d x).1 = .ok n
    ∧ (InodeForFileId sc d x).2.1 = d
    ∧ FileIdForInode d n = .ok x
    ∧ FileIdForInode (InodeForFileId sc d x).2.1 n = .ok x := by
  have h1 := ifi_hit sc d x n ((decodeInode_eq_some _ n).2 hf)
  have h2 : FileIdForInode d n = .ok x := by
    unfold FileIdForInode
    rw [hr]
    rfl
  rw [h1]
  exact ⟨rfl, rfl, h2, h2⟩

/-- Claim C8, witness at a concrete state with both mappings present. -/
theorem C8_witness :
    sget exD1.store (.f2i exA) = some (.vInode 1001)
    ∧ sget exD1.store (.i2f 1001) = some (.vId exA)
    ∧ (InodeForFileId [] exD1 exA).1 = .ok 1001
    ∧ FileIdForInode (InodeForFileId [] exD1 exA).2.1 1001 = .ok exA := by
  have h := C8_identity_roundtrip [] exD1 exA 1001 (by decide) (by decide)
  exact ⟨by decide, by decide, h.1, h.2.2.2⟩

/-- Claim C9, counterexample: after a failed single-item commit (`exD3`),
the persisted checkpoint still reads `last_change_id = 0`, but an empty page
with `largest_change_id = 3` broadcasts the synced signal — the in-memory
checkpoint (7) passes the guard while the committed one (0) is below the
page's largest change id. -/
theorem C9_counterexample :
    (processChange [] exD3 exEmptyPage).2.1 = true
    ∧ persistedCpt (processChange [] exD3 exEmptyPage).2.2.1
        = some { lastChangeId := 0, lastInode := 1001 }
    ∧ ((0 : Int) < exEmptyPage.largestChangeId) := by
  refine ⟨by decide, by decide, by decide⟩

/-- Claim C9 (corrected): the synced signal is broadcast only when the
in-memory `last_change_id` has reached the page's `largest_change_id` (for a
non-empty page this value has just been committed along with the last item,
but after an earlier failed commit an empty page can broadcast while the
persisted checkpoint is still behind — see the counterexample). -/
theorem C9_amended (sc : Sched) (d : DState) (c : ChangeList)
    (h : (processChange sc d c).2.1 = true) :
    c.largestChangeId ≤ (processChange sc d c).2.2.1.cpt.lastChangeId := by
  unfold processChange at h ⊢
  by_cases he : c.items.isEmpty
  · simp only [he, if_true] at h ⊢
    exact of_decide_eq_true h
  · simp only [he, Bool.false_eq_true, if_false] at h ⊢
    rcases hp : procItems sc d c.items with ⟨r, d', sc'⟩
    simp only [hp] at h ⊢
    cases r with
    | ok u =>
      simp only at h ⊢
      exact of_decide_eq_true h
    | error e => simp at h

/-- Claim C9, witness for the amended theorem: a successful concrete page
broadcast implies the in-memory checkpoint reached the page's largest id. -/
theorem C9_witness :
    (processChange [] exD0 exUpPage).2.1 = true
    ∧ exUpPage.largestChangeId ≤ (processChange [] exD0 exUpPage).2.2.1.cpt.lastChangeId := by
  exact ⟨by decide, C9_amended [] exD0 exUpPage (by decide)⟩

theorem rootLoop_len (fids : List Id) (sc : Sched) (d : DState) :
    (rootLoop sc d fids).1.length ≤ fids.length := by
  induction fids generalizing sc d with
  | nil => simp [rootLoop]
  | cons f rest ih =>
    unfold rootLoop
    rcases hr : InodeForFileId sc d f with ⟨r, d', sc'⟩
    cases r with
    | ok n =>
      simpa using Nat.succ_le_succ (ih sc' d')
    | error e =>
      exact Nat.le_succ_of_le (ih sc' d')

/-- Claim C10 (confirmed): on a cache miss, `root_inodes()` always succeeds:
it returns exactly the inodes collected by the lookup loop, caches that
(possibly partial) list under the sentinel, the list is never longer than
the root set, and a root id whose `inode_for_id` call fails is silently
skipped by the loop. -/
theorem C10_root_inodes (sc : Sched) (d : DState) :
    (RootInodes sc none d).1 = .ok (rootLoop sc d (RootFileIds d.store)).1
    ∧ (RootInodes sc none d).2.1 = some (rootLoop sc d (RootFileIds d.store)).1
    ∧ (rootLoop sc d (RootFileIds d.store)).1.length ≤ (RootFileIds d.store).length
    ∧ (∀ f rest e d₁ sc₁, InodeForFileId sc d f = (.error e, d₁, sc₁) →
        rootLoop sc d (f :: rest) = rootLoop sc₁ d₁ rest) := by
  refine ⟨rfl, rfl, rootLoop_len _ sc d, ?_⟩
  intro f rest e d₁ sc₁ hr
  simp only [rootLoop, hr]

end DriveDB

namespace DriveDB

/-- Claim C10, witness: a concrete failing inode lookup is skipped by the
root-inode loop. -/
theorem C10_witness :
    InodeForFileId [true] exD0 exA
      = (.error (), { store := [], cpt := { lastChangeId := 0, lastInode := 1001 } }, [])
    ∧ rootLoop [true] exD0 [exA]
      = rootLoop [] { store := [], cpt := { lastChangeId := 0, lastInode := 1001 } } [] := by
  refine ⟨by decide, ?_⟩
  exact (C10_root_inodes [true] exD0).2.2.2 exA [] ()
    { store := [], cpt := { lastChangeId := 0, lastInode := 1001 } } [] (by decide)

end DriveDB

/-! ## Claim C7: index hygiene -/

namespace DriveDB

theorem prefix_parent_colon (p c : Id) : p.isPrefixOf (p ++ ':' :: c) = true := by
  rw [List.isPrefixOf_iff_prefix]
  exact ⟨':' :: c, rfl⟩

theorem drop_parent_colon (p c : Id) : (p ++ ':' :: c).drop (p.length + 1) = c := by
  have h : p ++ ':' :: c = (p ++ [':']) ++ c := by simp
  rw [h, show p.length + 1 = (p ++ [':']).length by simp, List.drop_left]

theorem mem_kidScan (st : Store) (p s : Id) :
    s ∈ kidScan st p ↔ (∃ v, (Key.kid s, v) ∈ st) ∧ p.isPrefixOf s = true := by
  constructor
  · intro h
    obtain ⟨kv, hmem, hf⟩ := List.mem_filterMap.1 h
    obtain ⟨k, v⟩ := kv
    cases k with
    | kid s0 =>
      simp only at hf
      by_cases hp : p.isPrefixOf s0
      · rw [if_pos hp] at hf
        cases hf
        exact ⟨⟨v, hmem⟩, hp⟩
      · rw [if_neg hp] at hf
        cases hf
    | intk s0 => cases hf
    | f2i x => cases hf
    | i2f n => cases hf
    | fid x => cases hf
    | rtf x => cases hf
  · rintro ⟨⟨v, hmem⟩, hp⟩
    exact List.mem_filterMap.2 ⟨(Key.kid s, v), hmem, by simp [hp]⟩

theorem cfiDels_shape (st : Store) (p : Id) :
    ∀ op ∈ cfiDels st p, ∃ s, op = .bdel (.kid s) := by
  intro op hop
  obtain ⟨s, _, hf⟩ := List.mem_map.1 hop
  exact ⟨s, hf.symm⟩

theorem cfi_store_cases (st : Store) (p : Id) :
    (cfiDels st p = [] ∧ (ChildFileIds [] st p).2.1 = st)
    ∨ (ChildFileIds [] st p).2.1 = applyB st (cfiDels st p) := by
  unfold ChildFileIds
  by_cases he : cfiDels st p = []
  · left
    simp [he]
  · right
    simp only [List.isEmpty_iff, he, if_false, commitStep]
    rfl

theorem cfi_fid_eq (st : Store) (p : Id) (c : Id) :
    sget (ChildFileIds [] st p).2.1 (.fid c) = sget st (.fid c) := by
  rcases cfi_store_cases st p with ⟨h0, h⟩ | h
  · rw [h]
  · rw [h]
    apply sget_applyB_frame
    intro op hop
    obtain ⟨s, hs⟩ := cfiDels_shape st p op hop
    subst hs
    simp [BOp.key]

theorem cfi_kid_mono (st : Store) (p : Id) (s : Id) (v : Val)
    (h : sget (ChildFileIds [] st p).2.1 (.kid s) = some v) :
    sget st (.kid s) = some v := by
  rcases cfi_store_cases st p with ⟨h0, h'⟩ | h'
  · rwa [h'] at h
  · rw [h'] at h
    exact sget_applyB_of_dels _ _ _ _
      (fun op hop => by
        obtain ⟨s0, hs⟩ := cfiDels_shape st p op hop
        exact ⟨.kid s0, hs⟩) h

theorem cfi_gc (st : Store) (p c : Id) (v : Val)
    (hin : sget st (.kid (p ++ ':' :: c)) = some v)
    (habs : sget st (.fid c) = none) :
    sget (ChildFileIds [] st p).2.1 (.kid (p ++ ':' :: c)) = none := by
  have hscan : (p ++ ':' :: c) ∈ kidScan st p :=
    (mem_kidScan st p _).2 ⟨⟨v, sget_some_mem _ _ _ hin⟩, prefix_parent_colon p c⟩
  have hkeep : cfiKeep st p (p ++ ':' :: c) = false := by
    unfold cfiKeep
    rw [drop_parent_colon, habs]
    rfl
  have hdel : (BOp.bdel (.kid (p ++ ':' :: c))) ∈ cfiDels st p := by
    apply List.mem_map.2
    refine ⟨p ++ ':' :: c, List.mem_filter.2 ⟨hscan, ?_⟩, rfl⟩
    simp [hkeep]
  rcases cfi_store_cases st p with ⟨h0, h'⟩ | h'
  · exfalso
    rw [h0] at hdel
    cases hdel
  · rw [h']
    exact sget_applyB_dels_none _ _ _
      (fun op hop => by
        obtain ⟨s0, hs⟩ := cfiDels_shape st p op hop
        exact ⟨.kid s0, hs⟩) hdel

end DriveDB

namespace DriveDB

theorem cfi_entry_sub (st : Store) (p : Id) (q : Key × Val)
    (h : q ∈ (ChildFileIds [] st p).2.1) : q ∈ st := by
  rcases cfi_store_cases st p with ⟨h0, h'⟩ | h'
  · rwa [h'] at h
  · rw [h'] at h
    rcases mem_applyB _ _ _ h with h'' | h''
    · exact h''
    · exfalso
      obtain ⟨s0, hs⟩ := cfiDels_shape st p _ h''
      cases hs

theorem runCFI_cons (st : Store) (q : Id) (rest : List Id) :
    runCFI st (q :: rest) = runCFI (ChildFileIds [] st q).2.1 rest := rfl

theorem runCFI_fid_eq (ps : List Id) (st : Store) (c : Id) :
    sget (runCFI st ps) (.fid c) = sget st (.fid c) := by
  induction ps generalizing st with
  | nil => rfl
  | cons q rest ih =>
    rw [runCFI_cons, ih, cfi_fid_eq]

theorem runCFI_kid_mono (ps : List Id) (st : Store) (s : Id) (v : Val)
    (h : sget (runCFI st ps) (.kid s) = some v) : sget st (.kid s) = some v := by
  induction ps generalizing st with
  | nil => exact h
  | cons q rest ih =>
    rw [runCFI_cons] at h
    exact cfi_kid_mono st q s v (ih _ h)

/-- Claim C7 (confirmed): after `child_file_ids(p)` has run (with the
garbage-collection writes committing) for every parent `p` in a pass, the
store holds no child-index key `kid:p:c` for a parent of the pass whose
child entity `fid:c` is absent.  The `scanSafe` hypothesis restricts to
inputs on which the Go slice expression in the scan loop is in bounds. -/
theorem C7_index_hygiene (st : Store) (ps : List Id)
    (hsafe : scanSafe st ps = true) :
    ∀ p ∈ ps, ∀ c v, sget (runCFI st ps) (.kid (p ++ ':' :: c)) = some v →
      ∃ w, sget (runCFI st ps) (.fid c) = some w := by
  induction ps generalizing st with
  | nil =>
    intro p hp
    cases hp
  | cons q rest ih =>
    intro p hp c v hfin
    rw [runCFI_cons] at hfin
    rcases List.mem_cons.1 hp with rfl | hp'
    · have h1 : sget (ChildFileIds [] st p).2.1 (.kid (p ++ ':' :: c)) = some v :=
        runCFI_kid_mono rest _ _ v hfin
      have h2 : sget st (.kid (p ++ ':' :: c)) = some v :=
        cfi_kid_mono st p _ v h1
      rcases hw : sget st (.fid c) with _ | w
      · exfalso
        rw [cfi_gc st p c v h2 hw] at h1
        cases h1
      · refine ⟨w, ?_⟩
        rw [runCFI_cons, runCFI_fid_eq, cfi_fid_eq]
        exact hw
    · have hsafe' : scanSafe (ChildFileIds [] st q).2.1 rest = true := by
        rw [scanSafe, List.all_eq_true]
        intro q' hq'
        rw [List.all_eq_true]
        intro kv hkv
        have hin : kv ∈ st := cfi_entry_sub st q kv hkv
        have := (List.all_eq_true.1 hsafe) q' (List.mem_cons_of_mem _ hq')
        exact (List.all_eq_true.1 this) kv hin
      exact ih _ hsafe' p hp' c v hfin

/-- Claim C7, witness: a pass over the single parent `"A"` on a store holding
the stale entry `kid:A:g` (no entity `fid:g`) and the live entry `kid:A:B`
(entity `fid:B` present): afterwards the surviving `kid:A:B` has its entity
present — and the stale `kid:A:g` is indeed gone. -/
theorem C7_witness :
    scanSafe [ (.kid ['A', ':', 'g'], .vEmpty),
               (.fid ['B'], .vEmpty),
               (.kid ['A', ':', 'B'], .vEmpty) ] [['A']] = true
    ∧ sget (runCFI [ (.kid ['A', ':', 'g'], .vEmpty),
                     (.fid ['B'], .vEmpty),
                     (.kid ['A', ':', 'B'], .vEmpty) ] [['A']])
        (.kid (['A'] ++ ':' :: ['B'])) = some .vEmpty
    ∧ (∃ w, sget (runCFI [ (.kid ['A', ':', 'g'], .vEmpty),
                           (.fid ['B'], .vEmpty),
                           (.kid ['A', ':', 'B'], .vEmpty) ] [['A']])
        (.fid ['B']) = some w)
    ∧ sget (runCFI [ (.kid ['A', ':', 'g'], .vEmpty),
                     (.fid ['B'], .vEmpty),
                     (.kid ['A', ':', 'B'], .vEmpty) ] [['A']])
        (.kid ['A', ':', 'g']) = none := by
  refine ⟨by decide, by decide, ?_, by decide⟩
  exact C7_index_hygiene _ [['A']] (by decide) ['A'] (by decide) ['B'] .vEmpty (by decide)

end DriveDB

/-! ## Claim C6: inode monotonicity -/

namespace DriveDB

theorem inodesBounded_iff (d : DState) :
    inodesBounded d = true
      ↔ ∀ p ∈ d.store, ∀ m, p.1 = Key.i2f m → m ≤ d.cpt.lastInode := by
  unfold inodesBounded
  rw [List.all_eq_true]
  constructor
  · intro h p hp m hm
    have h' := h p hp
    rw [hm] at h'
    simpa using h'
  · intro h p hp
    rcases hk : p.1 with s | x | m | x | x | s <;> simp
    exact h p hp m hk

theorem stepok_refl (d : DState) : StepOK d d :=
  fun hb => ⟨Nat.le_refl _, fun _ _ h => h, hb⟩

theorem stepok_trans {d d' d'' : DState}
    (h1 : StepOK d d') (h2 : StepOK d' d'') : StepOK d d'' := by
  intro hb
  obtain ⟨m1, p1, b1⟩ := h1 hb
  obtain ⟨m2, p2, b2⟩ := h2 b1
  exact ⟨Nat.le_trans m1 m2, fun n v h => p2 n v (p1 n v h), b2⟩

theorem stepok_cpt (d : DState) (c : CheckPoint)
    (h : d.cpt.lastInode ≤ c.lastInode) :
    StepOK d { store := d.store, cpt := c } := by
  intro hb
  refine ⟨h, fun _ _ hv => hv, ?_⟩
  rw [inodesBounded_iff] at hb ⊢
  intro p hp m hm
  exact Nat.le_trans (hb p hp m hm) h

theorem stepok_applyB (d : DState) (b : Batch)
    (h : ∀ op ∈ b, ∀ m, op.key ≠ Key.i2f m) :
    StepOK d { store := applyB d.store b, cpt := d.cpt } := by
  intro hb
  refine ⟨Nat.le_refl _, ?_, ?_⟩
  · intro n v hv
    rw [sget_applyB_frame b d.store (.i2f n) (fun op hop => h op hop n)]
    exact hv
  · rw [inodesBounded_iff] at hb ⊢
    intro p hp m hm
    rcases mem_applyB b d.store p hp with h' | h'
    · exact hb p h' m hm
    · exfalso
      exact h _ h' m hm

theorem ifi_stepok (sc : Sched) (d : DState) (x : Id) :
    StepOK d (InodeForFileId sc d x).2.1 := by
  rcases hg : decodeInode (sget d.store (.f2i x)) with _ | n
  · rcases hc : (commitStep sc).1 with _ | _
    · rw [ifi_miss_fail sc d x hg hc]
      exact stepok_cpt d _ (Nat.le_succ _)
    · rw [ifi_miss_ok sc d x hg hc]
      intro hb
      have hbi := (inodesBounded_iff d).1 hb
      refine ⟨Nat.le_succ _, ?_, ?_⟩
      · intro n v hv
        have hn : n ≤ d.cpt.lastInode := hbi _ (sget_some_mem _ _ _ hv) n rfl
        have hfr : ∀ op ∈ allocBatch d x, op.key ≠ Key.i2f n := by
          intro op hop
          simp only [allocBatch, List.mem_cons, List.not_mem_nil, or_false] at hop
          rcases hop with rfl | rfl | rfl
          · simp [BOp.key, cptKey]
          · simp [BOp.key]
          · simp only [BOp.key, ne_eq, Key.i2f.injEq]
            omega
        show sget (applyB d.store (allocBatch d x)) (.i2f n) = some v
        rw [sget_applyB_frame _ _ _ hfr]
        exact hv
      · rw [inodesBounded_iff]
        intro p hp m hm
        rcases mem_applyB _ _ _ hp with h' | h'
        · exact Nat.le_trans (hbi p h' m hm) (Nat.le_succ _)
        · simp only [allocBatch, List.mem_cons, List.not_mem_nil, or_false,
            BOp.bput.injEq] at h'
          rcases h' with ⟨h1, h2⟩ | ⟨h1, h2⟩ | ⟨h1, h2⟩
          · rw [hm] at h1
            simp [cptKey] at h1
          · rw [hm] at h1
            simp at h1
          · rw [hm] at h1
            simp only [Key.i2f.injEq] at h1
            simp [h1]
  · rw [ifi_hit sc d x n hg]
    exact stepok_refl d

end DriveDB

namespace DriveDB

theorem rfb_b2_mem (d : DState) (x : Id) (b : Batch) (op : BOp)
    (hop : op ∈ b ++ [BOp.bdel (.fid x), BOp.bdel (.f2i x), BOp.bdel (.rtf x)]
        ++ (kidScan d.store x).map (fun s => BOp.bdel (.kid s))
        ++ (match FileById d x with
            | .ok f => f.parents.map (fun pr => BOp.bdel (.kid (pr.pid ++ ':' :: x)))
            | .error _ => ([] : Batch))) :
    op ∈ b ∨ ∀ m, op.key ≠ Key.i2f m := by
  rcases List.mem_append.1 hop with h | h
  · rcases List.mem_append.1 h with h' | h'
    · rcases List.mem_append.1 h' with h'' | h''
      · exact Or.inl h''
      · right
        intro m
        simp only [List.mem_cons, List.not_mem_nil, or_false] at h''
        rcases h'' with rfl | rfl | rfl <;> simp [BOp.key]
    · right
      intro m
      obtain ⟨s, _, hs⟩ := List.mem_map.1 h'
      rw [← hs]
      simp [BOp.key]
  · right
    intro m
    rcases hf : FileById d x with e | f
    · rw [hf] at h
      cases h
    · rw [hf] at h
      obtain ⟨pr, _, hs⟩ := List.mem_map.1 h
      rw [← hs]
      simp [BOp.key]

theorem rfb_batch_noi2f (sc : Sched) (d : DState) (x : Id) (b : Batch)
    (hb : ∀ op ∈ b, ∀ m, op.key ≠ Key.i2f m) :
    ∀ op ∈ (RemoveFileById sc d x b).2.1, ∀ m, op.key ≠ Key.i2f m := by
  intro op hop m
  unfold RemoveFileById at hop
  by_cases hc : (commitStep sc).1 = true
  · simp only [hc, if_true] at hop
    rcases rfb_b2_mem d x b op (by simpa using hop) with h | h
    · exact hb op h m
    · exact h m
  · simp only [hc, Bool.false_eq_true, if_false] at hop
    rcases rfb_b2_mem d x b op (by simpa using hop) with h | h
    · exact hb op h m
    · exact h m

theorem rfb_stepok (sc : Sched) (d : DState) (x : Id) (b : Batch)
    (hb : ∀ op ∈ b, ∀ m, op.key ≠ Key.i2f m) :
    StepOK d (RemoveFileById sc d x b).2.2.1 := by
  unfold RemoveFileById
  by_cases hc : (commitStep sc).1 = true
  · simp only [hc, if_true]
    refine stepok_trans ?_ (ifi_stepok _ _ x)
    refine stepok_applyB d _ ?_
    intro op hop m
    rcases rfb_b2_mem d x b op (by simpa using hop) with h | h
    · exact hb op h m
    · exact h m
  · simp only [hc, Bool.false_eq_true, if_false]
    exact stepok_refl d

theorem upd_stepok (sc : Sched) (d : DState) (b : Batch) (f : GFile) :
    StepOK d (UpdateFile sc d b f).2.2.1 := by
  unfold UpdateFile
  have h := ifi_stepok sc d f.id
  rcases hr : InodeForFileId sc d f.id with ⟨r, d', sc'⟩
  rw [hr] at h
  cases r <;> simpa using h

theorem upd_batch_noi2f (sc : Sched) (d : DState) (b : Batch) (f : GFile)
    (hb : ∀ op ∈ b, ∀ m, op.key ≠ Key.i2f m) :
    ∀ op ∈ (UpdateFile sc d b f).2.1, ∀ m, op.key ≠ Key.i2f m := by
  intro op hop m
  unfold UpdateFile at hop
  rcases hr : InodeForFileId sc d f.id with ⟨r, d', sc'⟩
  rw [hr] at hop
  cases r with
  | error e =>
    simp only at hop
    exact hb op hop m
  | ok n =>
    simp only at hop
    rcases List.mem_append.1 hop with h' | h'
    · rcases List.mem_append.1 h' with h'' | h''
      · exact hb op h'' m
      · simp only [List.mem_cons, List.not_mem_nil, or_false] at h''
        subst h''
        simp [BOp.key]
    · obtain ⟨pr, _, hs⟩ := List.mem_map.1 h'
      rw [← hs]
      by_cases hroot : pr.isRoot <;> simp [hroot, BOp.key]

end DriveDB

namespace DriveDB

theorem procItems_stepok (l : List Change) (sc : Sched) (d : DState) :
    StepOK d (procItems sc d l).2.1 := by
  induction l generalizing sc d with
  | nil => exact stepok_refl d
  | cons i rest ih =>
    have h0 := ifi_stepok sc d i.fileId
    unfold procItems
    rcases hr0 : InodeForFileId sc d i.fileId with ⟨r0, d1, sc1⟩
    rw [hr0] at h0
    simp only
    by_cases hdel : deleting i = true
    · simp only [hdel, if_true]
      have h1 := rfb_stepok sc1 d1 i.fileId [] (by intro op hop; cases hop)
      have hb1 := rfb_batch_noi2f sc1 d1 i.fileId [] (by intro op hop; cases hop)
      rcases hr1 : RemoveFileById sc1 d1 i.fileId [] with ⟨rr, b2, d2, sc2⟩
      rw [hr1] at h1 hb1
      simp only at h1 hb1 ⊢
      by_cases hc : (commitStep sc2).1 = true
      · simp only [hc, if_true]
        refine stepok_trans h0 (stepok_trans h1 (stepok_trans
          (stepok_cpt d2 _ (Nat.le_refl _)) (stepok_trans ?_ (ih _ _))))
        refine stepok_applyB _ _ ?_
        intro op hop m
        rcases List.mem_append.1 hop with h' | h'
        · exact hb1 op h' m
        · simp only [List.mem_singleton] at h'
          subst h'
          simp [BOp.key, cptKey]
      · simp only [hc, Bool.false_eq_true, if_false]
        exact stepok_trans h0 (stepok_trans h1 (stepok_cpt d2 _ (Nat.le_refl _)))
    · simp only [hdel, Bool.false_eq_true, if_false]
      have h1 := upd_stepok sc1 d1 [] i.file
      have hb1 := upd_batch_noi2f sc1 d1 [] i.file (by intro op hop; cases hop)
      rcases hr1 : UpdateFile sc1 d1 [] i.file with ⟨rr, b2, d2, sc2⟩
      rw [hr1] at h1 hb1
      simp only at h1 hb1 ⊢
      by_cases hc : (commitStep sc2).1 = true
      · simp only [hc, if_true]
        refine stepok_trans h0 (stepok_trans h1 (stepok_trans
          (stepok_cpt d2 _ (Nat.le_refl _)) (stepok_trans ?_ (ih _ _))))
        refine stepok_applyB _ _ ?_
        intro op hop m
        rcases List.mem_append.1 hop with h' | h'
        · exact hb1 op h' m
        · simp only [List.mem_singleton] at h'
          subst h'
          simp [BOp.key, cptKey]
      · simp only [hc, Bool.false_eq_true, if_false]
        exact stepok_trans h0 (stepok_trans h1 (stepok_cpt d2 _ (Nat.le_refl _)))

theorem processChange_stepok (sc : Sched) (d : DState) (c : ChangeList) :
    StepOK d (processChange sc d c).2.2.1 := by
  unfold processChange
  by_cases he : c.items.isEmpty
  · simp only [he, if_true]
    exact stepok_refl d
  · simp only [he, Bool.false_eq_true, if_false]
    have h := procItems_stepok c.items sc d
    rcases hp : procItems sc d c.items with ⟨r, d', sc'⟩
    rw [hp] at h
    cases r <;> simpa using h

theorem runOp_stepok (sc : Sched) (d : DState) (op : Op) :
    StepOK d (runOp sc d op).1 := by
  cases op with
  | alloc x => exact ifi_stepok sc d x
  | remove x => exact rfb_stepok sc d x [] (by intro o ho; cases ho)
  | page c => exact processChange_stepok sc d c

theorem runOps_stepok (ops : List Op) (sc : Sched) (d : DState) :
    StepOK d (runOps sc d ops).1 := by
  induction ops generalizing sc d with
  | nil => exact stepok_refl d
  | cons op rest ih =>
    exact stepok_trans (runOp_stepok sc d op) (ih _ _)

/-- Claim C6 (confirmed): starting from any state satisfying the allocator's
high-water invariant (every reverse mapping `i2f:n` has `n ≤ last_inode` —
true of a fresh database and preserved by every operation, as the third
conjunct shows), any sequence of allocations, removals and change-page
applications never decreases the in-memory `last_inode`, and an inode once
mapped to a RemoteId keeps exactly that mapping: `i2f:n` is never deleted
nor re-assigned to a different RemoteId, even after the file is removed. -/
theorem C6_inode_monotonicity (sc : Sched) (d : DState) (ops : List Op)
    (hb : inodesBounded d = true) :
    d.cpt.lastInode ≤ (runOps sc d ops).1.cpt.lastInode
    ∧ (∀ n v, sget d.store (.i2f n) = some v →
        sget (runOps sc d ops).1.store (.i2f n) = some v)
    ∧ inodesBounded (runOps sc d ops).1 = true :=
  runOps_stepok ops sc d hb

/-- Claim C6, witness: from the state with `"a"` allocated at inode 1001,
remove the file, re-allocate, and apply a deleting page; `last_inode` has not
decreased, `i2f:1001` still maps to `"a"`, and the invariant persists. -/
theorem C6_witness :
    inodesBounded exD1 = true
    ∧ exD1.cpt.lastInode
        ≤ (runOps [] exD1 [.remove exA, .alloc exA, .page exDelPage]).1.cpt.lastInode
    ∧ sget (runOps [] exD1 [.remove exA, .alloc exA, .page exDelPage]).1.store (.i2f 1001)
        = some (.vId exA)
    ∧ inodesBounded (runOps [] exD1 [.remove exA, .alloc exA, .page exDelPage]).1 = true := by
  have h := C6_inode_monotonicity [] exD1 [.remove exA, .alloc exA, .page exDelPage] (by decide)
  exact ⟨by decide, h.1, h.2.1 1001 (.vId exA) (by decide), h.2.2⟩

end DriveDB

/-! ## Claim C4: idempotent re-application (upsert-only machinery) -/

namespace DriveDB

theorem ifi_nil_sched (d : DState) (x : Id) :
    (InodeForFileId [] d x).2.2 = [] := by
  rcases hg : decodeInode (sget d.store (.f2i x)) with _ | n
  · rw [ifi_miss_ok [] d x hg rfl]
    rfl
  · rw [ifi_hit [] d x n hg]

theorem ifi_nil_ok (d : DState) (x : Id) :
    ∃ m, (InodeForFileId [] d x).1 = .ok m := by
  rcases hg : decodeInode (sget d.store (.f2i x)) with _ | n
  · rw [ifi_miss_ok [] d x hg rfl]
    exact ⟨d.cpt.lastInode + 1, rfl⟩
  · rw [ifi_hit [] d x n hg]
    exact ⟨n, rfl⟩

theorem ifiS_hit (d : DState) (x : Id) (n : Nat)
    (h : decodeInode (sget d.store (.f2i x)) = some n) : ifiS d x = d := by
  unfold ifiS
  rw [ifi_hit [] d x n h]

theorem ifiS_miss (d : DState) (x : Id)
    (h : decodeInode (sget d.store (.f2i x)) = none) :
    ifiS d x = { store := applyB d.store (allocBatch d x),
                 cpt := { lastChangeId := d.cpt.lastChangeId,
                          lastInode := d.cpt.lastInode + 1 } } := by
  unfold ifiS
  rw [ifi_miss_ok [] d x h rfl]

theorem parentsMap_eq (x : Id) (prs : List ParentRef) :
    prs.map (fun pr =>
        if pr.isRoot then BOp.bput (.rtf x) .vEmpty
        else BOp.bput (.kid (pr.pid ++ ':' :: x)) .vEmpty)
      = prs.map (fun pr => BOp.bput (pkey pr x) .vEmpty) := by
  apply List.map_congr_left
  intro pr _
  by_cases h : pr.isRoot <;> simp [pkey, h]

theorem upd_nil_eq (d : DState) (b : Batch) (f : GFile) :
    UpdateFile [] d b f
      = (.ok (), (b ++ [.bput (.fid f.id) (.vFile f)])
          ++ f.parents.map (fun pr => BOp.bput (pkey pr f.id) .vEmpty),
         ifiS d f.id, []) := by
  unfold UpdateFile
  obtain ⟨m, hm⟩ := ifi_nil_ok d f.id
  rcases hr : InodeForFileId [] d f.id with ⟨r, d', sc'⟩
  have hsc : sc' = [] := by
    have := ifi_nil_sched d f.id
    rw [hr] at this
    exact this
  have hds : d' = ifiS d f.id := by
    unfold ifiS
    rw [hr]
  rw [hr] at hm
  simp only at hm
  subst hm hsc hds
  simp only [parentsMap_eq]

theorem stepU_eq (d : DState) (i : Change) :
    stepU d i
      = { store := applyB (ifiS (ifiS d i.fileId) i.file.id).store
            (upsertWrites i (ifiS (ifiS d i.fileId) i.file.id).cpt.lastInode),
          cpt := { lastChangeId := i.id,
                   lastInode := (ifiS (ifiS d i.fileId) i.file.id).cpt.lastInode } } := by
  unfold stepU
  simp only [upd_nil_eq, writeCheckpointB, upsertWrites]
  congr 1

theorem procItems_cons_upsert (d : DState) (i : Change) (rest : List Change)
    (h : deleting i = false) :
    procItems [] d (i :: rest) = procItems [] (stepU d i) rest := by
  simp only [procItems]
  rcases hr : InodeForFileId [] d i.fileId with ⟨r0, d1, sc1⟩
  have hsc : sc1 = [] := by
    have := ifi_nil_sched d i.fileId
    rw [hr] at this
    exact this
  have hds : d1 = ifiS d i.fileId := by
    unfold ifiS
    rw [hr]
  subst hsc hds
  simp only [h, Bool.false_eq_true, if_false, upd_nil_eq, commitStep, if_true]
  rw [stepU_eq]
  simp [writeCheckpointB, upsertWrites]

theorem procItemsD_nil (d : DState) : procItemsD d [] = d := rfl

theorem procItemsD_cons_upsert (d : DState) (i : Change) (rest : List Change)
    (h : deleting i = false) :
    procItemsD d (i :: rest) = procItemsD (stepU d i) rest := by
  unfold procItemsD
  rw [procItems_cons_upsert d i rest h]

theorem procItems_pure_upsert (l : List Change) (d : DState)
    (hu : upsertOnly l = true) :
    procItems [] d l = (.ok (), procItemsD d l, []) := by
  induction l generalizing d with
  | nil => rfl
  | cons i rest ih =>
    have hi : deleting i = false := by
      have := (List.all_eq_true.1 hu) i (List.mem_cons_self _ _)
      simpa using this
    have hrest : upsertOnly rest = true := by
      rw [upsertOnly, List.all_eq_true]
      intro j hj
      exact (List.all_eq_true.1 hu) j (List.mem_cons_of_mem _ hj)
    rw [procItems_cons_upsert d i rest hi, procItemsD_cons_upsert d i rest hi]
    exact ih _ hrest

end DriveDB

namespace DriveDB

theorem uw_keys (i : Change) (L : Nat) (op : BOp) (hop : op ∈ upsertWrites i L) :
    op = .bput (.fid i.file.id) (.vFile i.file)
    ∨ (∃ pr ∈ i.file.parents, op = .bput (pkey pr i.file.id) .vEmpty)
    ∨ op = .bput cptKey (.vCpt { lastChangeId := i.id, lastInode := L }) := by
  unfold upsertWrites at hop
  rcases List.mem_cons.1 hop with h | h
  · exact Or.inl h
  · rcases List.mem_append.1 h with h' | h'
    · obtain ⟨pr, hpr, hs⟩ := List.mem_map.1 h'
      exact Or.inr (Or.inl ⟨pr, hpr, hs.symm⟩)
    · simp only [List.mem_singleton] at h'
      exact Or.inr (Or.inr h')

theorem uw_touch (i : Change) (L : Nat) (op : BOp) (hop : op ∈ upsertWrites i L) :
    touchKey i op.key := by
  rcases uw_keys i L op hop with h | ⟨pr, hpr, h⟩ | h
  · subst h
    simp [BOp.key, touchKey]
  · subst h
    by_cases hr : pr.isRoot
    · simp only [BOp.key, pkey, hr, if_true, touchKey]
      exact ⟨pr, hpr, hr, by trivial⟩
    · simp only [BOp.key, pkey, hr, Bool.false_eq_true, if_false, touchKey]
      exact ⟨pr, hpr, by simpa using hr, by trivial⟩
  · subst h
    simp [BOp.key, cptKey, touchKey]

theorem ifiS_frame (d : DState) (x : Id) (k : Key)
    (h2 : ∀ y, k ≠ Key.f2i y) (h3 : ∀ m, k ≠ Key.i2f m) (h4 : k ≠ cptKey) :
    sget (ifiS d x).store k = sget d.store k := by
  rcases hg : decodeInode (sget d.store (.f2i x)) with _ | n
  · rw [ifiS_miss d x hg]
    apply sget_applyB_frame
    intro op hop
    simp only [allocBatch, List.mem_cons, List.not_mem_nil, or_false] at hop
    rcases hop with rfl | rfl | rfl
    · exact fun hh => h4 hh.symm
    · exact fun hh => h2 x hh.symm
    · exact fun hh => h3 _ hh.symm
  · rw [ifiS_hit d x n hg]

theorem uw_frame (st : Store) (i : Change) (L : Nat) (k : Key)
    (hk : ¬ touchKey i k) :
    sget (applyB st (upsertWrites i L)) k = sget st k := by
  apply sget_applyB_frame
  intro op hop hh
  have ht := uw_touch i L op hop
  rw [hh] at ht
  exact hk ht

theorem stepU_frame (d : DState) (i : Change) (k : Key)
    (hk : ¬ touchKey i k)
    (h2 : ∀ y, k ≠ Key.f2i y) (h3 : ∀ m, k ≠ Key.i2f m) :
    sget (stepU d i).store k = sget d.store k := by
  have h4 : k ≠ cptKey := by
    intro hh
    subst hh
    exact hk (by simp [touchKey, cptKey])
  rw [stepU_eq]
  simp only
  rw [uw_frame _ i _ k hk, ifiS_frame _ _ k h2 h3 h4, ifiS_frame _ _ k h2 h3 h4]

end DriveDB

namespace DriveDB

theorem ifiS_f2i_stable (d : DState) (x y : Id) (n : Nat)
    (h : decodeInode (sget d.store (.f2i x)) = some n) :
    decodeInode (sget (ifiS d y).store (.f2i x)) = some n := by
  rcases hg : decodeInode (sget d.store (.f2i y)) with _ | m
  · by_cases hxy : y = x
    · subst hxy
      rw [hg] at h
      cases h
    · rw [ifiS_miss d y hg]
      simp only
      rw [sget_applyB_frame _ _ _ (by
        intro op hop
        simp only [allocBatch, List.mem_cons, List.not_mem_nil, or_false] at hop
        rcases hop with rfl | rfl | rfl
        · simp [BOp.key, cptKey]
        · simp only [BOp.key, ne_eq, Key.f2i.injEq]
          exact fun hh => hxy hh
        · simp [BOp.key])]
      exact h
  · rw [ifiS_hit d y m hg]
    exact h

theorem uw_f2i_frame (st : Store) (i : Change) (L : Nat) (x : Id) :
    sget (applyB st (upsertWrites i L)) (.f2i x) = sget st (.f2i x) := by
  apply sget_applyB_frame
  intro op hop
  rcases uw_keys i L op hop with h | ⟨pr, hpr, h⟩ | h <;> subst h
  · simp [BOp.key]
  · by_cases hr : pr.isRoot <;> simp [BOp.key, pkey, hr]
  · simp [BOp.key, cptKey]

theorem stepU_f2i_stable (d : DState) (i : Change) (x : Id) (n : Nat)
    (h : decodeInode (sget d.store (.f2i x)) = some n) :
    decodeInode (sget (stepU d i).store (.f2i x)) = some n := by
  rw [stepU_eq]
  simp only
  rw [uw_f2i_frame]
  exact ifiS_f2i_stable (ifiS d i.fileId) x i.file.id n
    (ifiS_f2i_stable d x i.fileId n h)

theorem ifiS_f2i_after (d : DState) (x : Id) :
    ∃ n, decodeInode (sget (ifiS d x).store (.f2i x)) = some n := by
  rcases hg : decodeInode (sget d.store (.f2i x)) with _ | n
  · refine ⟨d.cpt.lastInode + 1, ?_⟩
    rw [ifiS_miss d x hg]
    simp only
    have e : applyB d.store (allocBatch d x) =
        sput (sput (sput d.store cptKey
            (.vCpt { lastChangeId := d.cpt.lastChangeId,
                     lastInode := d.cpt.lastInode + 1 }))
          (.f2i x) (.vInode (d.cpt.lastInode + 1)))
          (.i2f (d.cpt.lastInode + 1)) (.vId x) := rfl
    rw [e, sget_sput_ne _ _ _ _ (by simp), sget_sput_self]
    rfl
  · exact ⟨n, by rw [ifiS_hit d x n hg]; exact hg⟩

theorem stepU_f2i_after_fileId (d : DState) (i : Change) :
    ∃ n, decodeInode (sget (stepU d i).store (.f2i i.fileId)) = some n := by
  obtain ⟨n, hn⟩ := ifiS_f2i_after d i.fileId
  have h2 := ifiS_f2i_stable (ifiS d i.fileId) i.fileId i.file.id n hn

  refine ⟨n, ?_⟩
  rw [stepU_eq]
  simp only
  rw [uw_f2i_frame]
  exact h2

theorem stepU_f2i_after_file (d : DState) (i : Change) :
    ∃ n, decodeInode (sget (stepU d i).store (.f2i i.file.id)) = some n := by
  obtain ⟨n, hn⟩ := ifiS_f2i_after (ifiS d i.fileId) i.file.id
  refine ⟨n, ?_⟩
  rw [stepU_eq]
  simp only
  rw [uw_f2i_frame]
  exact hn

theorem upsertOnly_cons (i : Change) (rest : List Change)
    (hu : upsertOnly (i :: rest) = true) :
    deleting i = false ∧ upsertOnly rest = true := by
  constructor
  · have := (List.all_eq_true.1 hu) i (List.mem_cons_self _ _)
    simpa using this
  · rw [upsertOnly, List.all_eq_true]
    intro j hj
    exact (List.all_eq_true.1 hu) j (List.mem_cons_of_mem _ hj)

theorem run_f2i_stable (l : List Change) (d : DState) (x : Id) (n : Nat)
    (hu : upsertOnly l = true)
    (h : decodeInode (sget d.store (.f2i x)) = some n) :
    decodeInode (sget (procItemsD d l).store (.f2i x)) = some n := by
  induction l generalizing d with
  | nil => exact h
  | cons i rest ih =>
    obtain ⟨hi, hrest⟩ := upsertOnly_cons i rest hu
    rw [procItemsD_cons_upsert d i rest hi]
    exact ih _ hrest (stepU_f2i_stable d i x n h)

theorem run_allocated (l : List Change) (d : DState)
    (hu : upsertOnly l = true) :
    allocatedAll (procItemsD d l) l := by
  induction l generalizing d with
  | nil => intro j hj; cases hj
  | cons i rest ih =>
    obtain ⟨hi, hrest⟩ := upsertOnly_cons i rest hu
    intro j hj
    rw [procItemsD_cons_upsert d i rest hi]
    rcases List.mem_cons.1 hj with rfl | hj'
    · obtain ⟨n1, hn1⟩ := stepU_f2i_after_fileId d j
      obtain ⟨n2, hn2⟩ := stepU_f2i_after_file d j
      exact ⟨⟨n1, run_f2i_stable rest _ _ n1 hrest hn1⟩,
             ⟨n2, run_f2i_stable rest _ _ n2 hrest hn2⟩⟩
    · exact ih _ hrest j hj'

theorem lastIdD_cons (i : Change) (rest : List Change) (dflt : Int) :
    lastIdD (i :: rest) dflt = lastIdD rest i.id := by
  cases rest with
  | nil => rfl
  | cons j tl =>
    unfold lastIdD lastIdOf
    rw [List.getLast?_cons_cons]
    rcases h : (j :: tl).getLast? with _ | a
    · rw [List.getLast?_eq_none_iff] at h
      cases h
    · simp

theorem run_lastChangeId (l : List Change) (d : DState)
    (hu : upsertOnly l = true) :
    (procItemsD d l).cpt.lastChangeId = lastIdD l d.cpt.lastChangeId := by
  induction l generalizing d with
  | nil => rfl
  | cons i rest ih =>
    obtain ⟨hi, hrest⟩ := upsertOnly_cons i rest hu
    rw [procItemsD_cons_upsert d i rest hi, lastIdD_cons, ih _ hrest, stepU_eq]

theorem stepU_lastInode (d : DState) (i : Change) :
    (stepU d i).cpt.lastInode
      = (ifiS (ifiS d i.fileId) i.file.id).cpt.lastInode := by
  rw [stepU_eq]

end DriveDB

namespace DriveDB

theorem applyB_vempty_stay (b : Batch) (st : Store) (k : Key)
    (hall : ∀ op ∈ b, op.key ≠ k ∨ op = .bput k .vEmpty)
    (h : sget st k = some .vEmpty) :
    sget (applyB st b) k = some .vEmpty := by
  induction b generalizing st with
  | nil => exact h
  | cons op rest ih =>
    rw [applyB_cons]
    refine ih _ (fun o ho => hall o (List.mem_cons_of_mem _ ho)) ?_
    rcases hall op (List.mem_cons_self _ _) with h' | h'
    · rw [sget_applyOp_ne st op k h']
      exact h
    · subst h'
      exact sget_sput_self st k .vEmpty

theorem applyB_vempty (b : Batch) (st : Store) (k : Key)
    (hall : ∀ op ∈ b, op.key ≠ k ∨ op = .bput k .vEmpty)
    (hmem : (BOp.bput k .vEmpty) ∈ b) :
    sget (applyB st b) k = some .vEmpty := by
  induction b generalizing st with
  | nil => cases hmem
  | cons op rest ih =>
    rw [applyB_cons]
    rcases List.mem_cons.1 hmem with h0 | h0
    · rw [← h0]
      exact applyB_vempty_stay rest _ k
        (fun o ho => hall o (List.mem_cons_of_mem _ ho))
        (sget_sput_self st k .vEmpty)
    · exact ih _ (fun o ho => hall o (List.mem_cons_of_mem _ ho)) h0

theorem isIdxKey_cases (k : Key) (h : (∃ y, k = Key.rtf y) ∨ (∃ s, k = Key.kid s)) :
    (∀ x, k ≠ Key.fid x) ∧ (∀ y, k ≠ Key.f2i y) ∧ (∀ m, k ≠ Key.i2f m) ∧ k ≠ cptKey := by
  rcases h with ⟨y, rfl⟩ | ⟨s, rfl⟩ <;> refine ⟨?_, ?_, ?_, ?_⟩ <;> simp [cptKey]

theorem uw_vempty_shape (i : Change) (L : Nat) (k : Key)
    (hk : (∃ y, k = Key.rtf y) ∨ (∃ s, k = Key.kid s)) :
    ∀ op ∈ upsertWrites i L, op.key ≠ k ∨ op = .bput k .vEmpty := by
  intro op hop
  obtain ⟨hfid, hf2i, hi2f, hcpt⟩ := isIdxKey_cases k hk
  rcases uw_keys i L op hop with h | ⟨pr, hpr, h⟩ | h <;> subst h
  · left
    simp only [BOp.key]
    exact fun hh => hfid _ hh.symm
  · by_cases he : pkey pr i.file.id = k
    · right
      rw [he]
    · left
      simpa [BOp.key] using he
  · left
    simp only [BOp.key]
    exact fun hh => hcpt hh.symm

theorem stepU_idx_stay (d : DState) (i : Change) (k : Key)
    (hk : (∃ y, k = Key.rtf y) ∨ (∃ s, k = Key.kid s))
    (h : sget d.store k = some .vEmpty) :
    sget (stepU d i).store k = some .vEmpty := by
  obtain ⟨hfid, hf2i, hi2f, hcpt⟩ := isIdxKey_cases k hk
  rw [stepU_eq]
  simp only
  refine applyB_vempty_stay _ _ k (uw_vempty_shape i _ k hk) ?_
  rw [ifiS_frame _ _ k hf2i hi2f hcpt, ifiS_frame _ _ k hf2i hi2f hcpt]
  exact h

theorem stepU_idx_set (d : DState) (i : Change) (pr : ParentRef)
    (hpr : pr ∈ i.file.parents) :
    sget (stepU d i).store (pkey pr i.file.id) = some .vEmpty := by
  have hk : (∃ y, pkey pr i.file.id = Key.rtf y) ∨ (∃ s, pkey pr i.file.id = Key.kid s) := by
    by_cases hr : pr.isRoot
    · exact Or.inl ⟨i.file.id, by simp [pkey, hr]⟩
    · exact Or.inr ⟨pr.pid ++ ':' :: i.file.id, by simp [pkey, hr]⟩
  rw [stepU_eq]
  simp only
  refine applyB_vempty _ _ _ (uw_vempty_shape i _ _ hk) ?_
  unfold upsertWrites
  refine List.mem_cons_of_mem _ (List.mem_append.2 (Or.inl ?_))
  exact List.mem_map.2 ⟨pr, hpr, rfl⟩

theorem run_idx_stay (l : List Change) (d : DState) (k : Key)
    (hu : upsertOnly l = true)
    (hk : (∃ y, k = Key.rtf y) ∨ (∃ s, k = Key.kid s))
    (h : sget d.store k = some .vEmpty) :
    sget (procItemsD d l).store k = some .vEmpty := by
  induction l generalizing d with
  | nil => exact h
  | cons i rest ih =>
    obtain ⟨hi, hrest⟩ := upsertOnly_cons i rest hu
    rw [procItemsD_cons_upsert d i rest hi]
    exact ih _ hrest (stepU_idx_stay d i k hk h)

theorem run_idx_set (l : List Change) (d : DState)
    (hu : upsertOnly l = true) :
    ∀ i ∈ l, ∀ pr ∈ i.file.parents,
      sget (procItemsD d l).store (pkey pr i.file.id) = some .vEmpty := by
  induction l generalizing d with
  | nil => intro i hi; cases hi
  | cons i rest ih =>
    obtain ⟨hi, hrest⟩ := upsertOnly_cons i rest hu
    intro j hj pr hpr
    rw [procItemsD_cons_upsert d i rest hi]
    rcases List.mem_cons.1 hj with rfl | hj'
    · have hk : (∃ y, pkey pr j.file.id = Key.rtf y) ∨ (∃ s, pkey pr j.file.id = Key.kid s) := by
        by_cases hr : pr.isRoot
        · exact Or.inl ⟨j.file.id, by simp [pkey, hr]⟩
        · exact Or.inr ⟨pr.pid ++ ':' :: j.file.id, by simp [pkey, hr]⟩
      exact run_idx_stay rest _ _ hrest hk (stepU_idx_set d j pr hpr)
    · exact ih _ hrest j hj' pr hpr

end DriveDB

namespace DriveDB

theorem stepU_fid_self (d : DState) (i : Change) :
    sget (stepU d i).store (.fid i.file.id) = some (.vFile i.file) := by
  rw [stepU_eq]
  simp only
  unfold upsertWrites
  rw [applyB_append]
  rw [sget_applyB_frame _ _ _ ?_]
  · rw [applyB_cons]
    rw [sget_applyB_frame _ _ _ ?_]
    · simp [applyOp, sget_sput_self]
    · intro op hop
      obtain ⟨pr, hpr, hs⟩ := List.mem_map.1 hop
      subst hs
      by_cases hr : pr.isRoot <;> simp [BOp.key, pkey, hr]
  · intro op hop
    simp only [List.mem_singleton] at hop
    subst hop
    simp [BOp.key, cptKey]

theorem stepU_fid_frame (d : DState) (i : Change) (x : Id)
    (h : i.file.id ≠ x) :
    sget (stepU d i).store (.fid x) = sget d.store (.fid x) := by
  refine stepU_frame d i (.fid x) ?_ (by simp) (by simp)
  simp only [touchKey]
  exact h

theorem run_fid_frame (l : List Change) (d : DState) (x : Id)
    (hu : upsertOnly l = true)
    (h : ∀ j ∈ l, j.file.id ≠ x) :
    sget (procItemsD d l).store (.fid x) = sget d.store (.fid x) := by
  induction l generalizing d with
  | nil => rfl
  | cons i rest ih =>
    obtain ⟨hi, hrest⟩ := upsertOnly_cons i rest hu
    rw [procItemsD_cons_upsert d i rest hi,
      ih _ hrest (fun j hj => h j (List.mem_cons_of_mem _ hj)),
      stepU_fid_frame d i x (h i (List.mem_cons_self _ _))]

theorem lastChangeFor_cons_of_some (i j : Change) (rest : List Change) (x : Id)
    (h : lastChangeFor rest x = some j) :
    lastChangeFor (i :: rest) x = some j := by
  unfold lastChangeFor at h ⊢
  rw [List.reverse_cons, List.find?_append, h]
  rfl

theorem lastChangeFor_cons_of_none (i : Change) (rest : List Change) (x : Id)
    (h : lastChangeFor rest x = none) :
    lastChangeFor (i :: rest) x = if i.file.id = x then some i else none := by
  unfold lastChangeFor at h ⊢
  rw [List.reverse_cons, List.find?_append, h]
  show List.find? (fun i => decide (i.file.id = x)) [i] = _
  by_cases hx : i.file.id = x <;> simp [List.find?, hx]

theorem lastChangeFor_none_iff (l : List Change) (x : Id) :
    lastChangeFor l x = none ↔ ∀ j ∈ l, j.file.id ≠ x := by
  unfold lastChangeFor
  rw [List.find?_eq_none]
  constructor
  · intro h j hj
    have := h j (List.mem_reverse.2 hj)
    simpa using this
  · intro h j hj
    simpa using h j (List.mem_reverse.1 hj)

theorem run_fid_last (l : List Change) (d : DState) (x : Id) (j : Change)
    (hu : upsertOnly l = true)
    (h : lastChangeFor l x = some j) :
    sget (procItemsD d l).store (.fid x) = some (.vFile j.file) := by
  induction l generalizing d with
  | nil => cases h
  | cons i rest ih =>
    obtain ⟨hi, hrest⟩ := upsertOnly_cons i rest hu
    rw [procItemsD_cons_upsert d i rest hi]
    rcases hr : lastChangeFor rest x with _ | j'
    · rw [lastChangeFor_cons_of_none i rest x hr] at h
      by_cases hx : i.file.id = x
      · rw [if_pos hx] at h
        cases h
        rw [run_fid_frame rest _ x hrest ((lastChangeFor_none_iff rest x).1 hr)]
        rw [← hx]
        exact stepU_fid_self d j
      · rw [if_neg hx] at h
        cases h
    · rw [lastChangeFor_cons_of_some i j' rest x hr] at h
      cases h
      exact ih _ hrest hr

theorem stepU_cpt_self (d : DState) (i : Change) :
    sget (stepU d i).store cptKey = some (.vCpt (stepU d i).cpt) := by
  rw [stepU_eq]
  simp only
  unfold upsertWrites
  rw [applyB_append, applyB_cons, applyB_nil]
  simp [applyOp, sget_sput_self]

theorem run_cpt_self (l : List Change) (d : DState)
    (hu : upsertOnly l = true) (hne : l ≠ []) :
    sget (procItemsD d l).store cptKey = some (.vCpt (procItemsD d l).cpt) := by
  induction l generalizing d with
  | nil => exact absurd rfl hne
  | cons i rest ih =>
    obtain ⟨hi, hrest⟩ := upsertOnly_cons i rest hu
    rw [procItemsD_cons_upsert d i rest hi]
    cases rest with
    | nil => exact stepU_cpt_self d i
    | cons j tl => exact ih _ hrest (by simp)

end DriveDB

namespace DriveDB

theorem replayWrites_cons (i : Change) (rest : List Change) (L : Nat) :
    replayWrites (i :: rest) L = upsertWrites i L ++ replayWrites rest L := by
  simp [replayWrites]

theorem stepU_alloc_free (d : DState) (i : Change) (n1 n2 : Nat)
    (h1 : decodeInode (sget d.store (.f2i i.fileId)) = some n1)
    (h2 : decodeInode (sget d.store (.f2i i.file.id)) = some n2) :
    stepU d i = { store := applyB d.store (upsertWrites i d.cpt.lastInode),
                  cpt := { lastChangeId := i.id, lastInode := d.cpt.lastInode } } := by
  rw [stepU_eq, ifiS_hit d i.fileId n1 h1, ifiS_hit d i.file.id n2 h2]

theorem procItems_noalloc (l : List Change) : ∀ (d : DState),
    upsertOnly l = true → allocatedAll d l →
    procItemsD d l
      = { store := applyB d.store (replayWrites l d.cpt.lastInode),
          cpt := { lastChangeId := lastIdD l d.cpt.lastChangeId,
                   lastInode := d.cpt.lastInode } } := by
  induction l with
  | nil => intro d _ _; rfl
  | cons i rest ih =>
    intro d hu ha
    obtain ⟨hi, hrest⟩ := upsertOnly_cons i rest hu
    obtain ⟨⟨n1, hn1⟩, ⟨n2, hn2⟩⟩ := ha i (List.mem_cons_self _ _)
    rw [procItemsD_cons_upsert d i rest hi]
    rw [ih _ hrest (by
      intro j hj
      obtain ⟨⟨m1, hm1⟩, ⟨m2, hm2⟩⟩ := ha j (List.mem_cons_of_mem _ hj)
      exact ⟨⟨m1, stepU_f2i_stable d i _ m1 hm1⟩,
             ⟨m2, stepU_f2i_stable d i _ m2 hm2⟩⟩)]
    rw [stepU_alloc_free d i n1 n2 hn1 hn2]
    rw [replayWrites_cons, applyB_append, lastIdD_cons]

theorem uw_fid_self (st : Store) (i : Change) (L : Nat) :
    sget (applyB st (upsertWrites i L)) (.fid i.file.id) = some (.vFile i.file) := by
  unfold upsertWrites
  rw [applyB_append]
  rw [sget_applyB_frame _ _ _ ?_]
  · rw [applyB_cons]
    rw [sget_applyB_frame _ _ _ ?_]
    · simp [applyOp, sget_sput_self]
    · intro op hop
      obtain ⟨pr, hpr, hs⟩ := List.mem_map.1 hop
      subst hs
      by_cases hr : pr.isRoot <;> simp [BOp.key, pkey, hr]
  · intro op hop
    simp only [List.mem_singleton] at hop
    subst hop
    simp [BOp.key, cptKey]

theorem uw_cpt_self (st : Store) (i : Change) (L : Nat) :
    sget (applyB st (upsertWrites i L)) cptKey
      = some (.vCpt { lastChangeId := i.id, lastInode := L }) := by
  unfold upsertWrites
  rw [applyB_append, applyB_cons, applyB_nil]
  simp [applyOp, sget_sput_self]

theorem uw_idx_set (st : Store) (i : Change) (L : Nat) (pr : ParentRef)
    (hpr : pr ∈ i.file.parents) :
    sget (applyB st (upsertWrites i L)) (pkey pr i.file.id) = some .vEmpty := by
  have hk : (∃ y, pkey pr i.file.id = Key.rtf y) ∨ (∃ s, pkey pr i.file.id = Key.kid s) := by
    by_cases hr : pr.isRoot
    · exact Or.inl ⟨i.file.id, by simp [pkey, hr]⟩
    · exact Or.inr ⟨pr.pid ++ ':' :: i.file.id, by simp [pkey, hr]⟩
  refine applyB_vempty _ _ _ (uw_vempty_shape i _ _ hk) ?_
  unfold upsertWrites
  refine List.mem_append.2 (Or.inl ?_)
  exact List.mem_cons_of_mem _ (List.mem_map.2 ⟨pr, hpr, rfl⟩)

theorem writesKey_nil (k : Key) : ¬ writesKey [] k := by
  cases k <;> simp [writesKey]

theorem writesKey_cons (i : Change) (rest : List Change) (k : Key) :
    writesKey (i :: rest) k ↔ touchKey i k ∨ writesKey rest k := by
  cases k <;> simp [writesKey, touchKey, List.mem_cons]

theorem lastIdOf_cons_of_some (i : Change) (rest : List Change) (j : Int)
    (h : lastIdOf rest = some j) : lastIdOf (i :: rest) = some j := by
  cases rest with
  | nil => cases h
  | cons a tl =>
    unfold lastIdOf at h ⊢
    rwa [List.getLast?_cons_cons]

end DriveDB

namespace DriveDB

theorem replay_absorb (l : List Change) : ∀ (cur st : Store) (L : Nat),
    upsertOnly l = true →
    (∀ k, ¬ writesKey l k → sget cur k = sget st k) →
    (∀ x j, lastChangeFor l x = some j → sget st (.fid x) = some (.vFile j.file)) →
    (∀ i ∈ l, ∀ pr ∈ i.file.parents, sget st (pkey pr i.file.id) = some .vEmpty) →
    (∀ jid, lastIdOf l = some jid →
      sget st cptKey = some (.vCpt { lastChangeId := jid, lastInode := L })) →
    ∀ k, sget (applyB cur (replayWrites l L)) k = sget st k := by
  induction l with
  | nil =>
    intro cur st L _ hagree _ _ _ k
    exact hagree k (writesKey_nil k)
  | cons i rest ih =>
    intro cur st L hu hagree hfid hidx hcpt k
    obtain ⟨hi, hrest⟩ := upsertOnly_cons i rest hu
    rw [replayWrites_cons, applyB_append]
    refine ih (applyB cur (upsertWrites i L)) st L hrest ?_ ?_ ?_ ?_ k
    · intro q hq
      by_cases ht : touchKey i q
      · rcases q with s | x | m | x | x | s
        · simp only [touchKey] at ht
          subst ht
          have hrest_nil : rest = [] := by
            by_contra hne
            exact hq (by simp [writesKey, hne])
          subst hrest_nil
          rw [show Key.intk "checkpoint" = cptKey from rfl, uw_cpt_self]
          exact (hcpt i.id rfl).symm
        · simp only [touchKey] at ht
        · simp only [touchKey] at ht
        · simp only [touchKey] at ht
          subst ht
          rw [uw_fid_self]
          refine (hfid i.file.id i ?_).symm
          have hnone : lastChangeFor rest i.file.id = none := by
            rw [lastChangeFor_none_iff]
            intro j hj hj'
            exact hq (by simp only [writesKey]; exact ⟨j, hj, hj'⟩)
          rw [lastChangeFor_cons_of_none i rest _ hnone, if_pos rfl]
        · simp only [touchKey] at ht
          obtain ⟨pr, hpr, hroot, hx⟩ := ht
          have he : pkey pr i.file.id = Key.rtf x := by
            simp [pkey, hroot, hx]
          rw [← he, uw_idx_set cur i L pr hpr]
          exact (hidx i (List.mem_cons_self _ _) pr hpr).symm
        · simp only [touchKey] at ht
          obtain ⟨pr, hpr, hroot, hs⟩ := ht
          have he : pkey pr i.file.id = Key.kid s := by
            simp [pkey, hroot, hs]
          rw [← he, uw_idx_set cur i L pr hpr]
          exact (hidx i (List.mem_cons_self _ _) pr hpr).symm
      · rw [uw_frame cur i L q ht]
        refine hagree q ?_
        intro hw
        rcases (writesKey_cons i rest q).1 hw with h' | h'
        · exact ht h'
        · exact hq h'
    · intro x j h
      exact hfid x j (lastChangeFor_cons_of_some i j rest x h)
    · intro j hj pr hpr
      exact hidx j (List.mem_cons_of_mem _ hj) pr hpr
    · intro jid h
      exact hcpt jid (lastIdOf_cons_of_some i rest jid h)

end DriveDB

namespace DriveDB

theorem pageState_empty (d : DState) (c : ChangeList)
    (he : c.items.isEmpty = true) : pageState d c = d := by
  unfold pageState processChange
  simp [he]

theorem pageState_nonempty (d : DState) (c : ChangeList)
    (hu : upsertOnly c.items = true) (he : c.items.isEmpty = false) :
    pageState d c = procItemsD d c.items := by
  unfold pageState processChange
  simp only [he, Bool.false_eq_true, if_false]
  rw [procItems_pure_upsert c.items d hu]

theorem lastIdD_idem (l : List Change) (dflt : Int) :
    lastIdD l (lastIdD l dflt) = lastIdD l dflt := by
  unfold lastIdD
  cases lastIdOf l <;> simp

/-- Claim C4, counterexample: applying the one-item deleting page for `"a"`
twice from a fresh store does not yield the durable state of applying it
once — each application re-allocates a fresh inode for the deleted id, so
the second run adds reverse mappings `i2f:1003`, `i2f:1004` and bumps the
persisted checkpoint's `last_inode` from 1002 to 1004. -/
theorem C4_counterexample :
    sget (pageState (pageState exD0 exDelPage) exDelPage).store (.i2f 1003)
        = some (.vId exA)
    ∧ sget (pageState exD0 exDelPage).store (.i2f 1003) = none
    ∧ persistedCpt (pageState exD0 exDelPage)
        = some { lastChangeId := 5, lastInode := 1002 }
    ∧ persistedCpt (pageState (pageState exD0 exDelPage) exDelPage)
        = some { lastChangeId := 5, lastInode := 1004 } := by
  refine ⟨by decide, by decide, by decide, by decide⟩

/-- Claim C4 (corrected): applying a ChangePage containing only non-deleting
items twice in succession leaves the durable store (entity keys, identity
mappings, root/child index keys, and checkpoint) and the in-memory
checkpoint in the same state as applying it once.  Pages with deleting items
are not idempotent: every application allocates a fresh inode for the
deleted id (see the counterexample). -/
theorem C4_amended (d : DState) (c : ChangeList)
    (hu : upsertOnly c.items = true) :
    DEquiv (pageState (pageState d c) c) (pageState d c) := by
  rcases he : c.items.isEmpty with _ | _
  · have h1 : pageState d c = procItemsD d c.items := pageState_nonempty d c hu he
    have h2 : pageState (procItemsD d c.items) c = procItemsD (procItemsD d c.items) c.items :=
      pageState_nonempty _ c hu he
    rw [h1, h2]
    have hall : allocatedAll (procItemsD d c.items) c.items := run_allocated c.items d hu
    rw [procItems_noalloc c.items (procItemsD d c.items) hu hall]
    constructor
    · intro k
      refine replay_absorb c.items (procItemsD d c.items).store
        (procItemsD d c.items).store (procItemsD d c.items).cpt.lastInode hu
        (fun _ _ => rfl) ?_ ?_ ?_ k
      · intro x j h
        exact run_fid_last c.items d x j hu h
      · intro i hi pr hpr
        exact run_idx_set c.items d hu i hi pr hpr
      · intro jid h
        have h5 := run_cpt_self c.items d hu (by
          intro hnil
          rw [hnil] at he
          cases he)
        have hid : (procItemsD d c.items).cpt.lastChangeId = jid := by
          rw [run_lastChangeId c.items d hu]
          unfold lastIdD
          rw [h]
          rfl
        rw [h5, ← hid]
    · show (⟨lastIdD c.items (procItemsD d c.items).cpt.lastChangeId,
          (procItemsD d c.items).cpt.lastInode⟩ : CheckPoint)
        = (procItemsD d c.items).cpt
      rw [run_lastChangeId c.items d hu, lastIdD_idem,
        ← run_lastChangeId c.items d hu]
  · rw [pageState_empty d c he, pageState_empty d c he]
    exact ⟨fun _ => rfl, rfl⟩

/-- Claim C4, witness for the amended theorem: the single-upsert page applied
twice from a fresh store equals applying it once, pointwise and on the
in-memory checkpoint. -/
theorem C4_witness :
    upsertOnly exUpPage.items = true
    ∧ DEquiv (pageState (pageState exD0 exUpPage) exUpPage) (pageState exD0 exUpPage) :=
  ⟨by decide, C4_amended exD0 exUpPage (by decide)⟩

end DriveDB

namespace DriveDB

/-- Claim C3, witness for the amended theorem at the concrete failing run. -/
theorem C3_witness :
    sget exD1.store (.f2i exUpItem.fileId) = some (.vInode 1001)
    ∧ sget exD1.store (.f2i exUpItem.file.id) = some (.vInode 1001)
    ∧ deleting exUpItem = false
    ∧ ((processChange [true] exD1 { items := [exUpItem], largestChangeId := 7 }).1 = .error ()
      ∧ (processChange [true] exD1 { items := [exUpItem], largestChangeId := 7 }).2.2.1.store
          = exD1.store
      ∧ (processChange [true] exD1 { items := [exUpItem], largestChangeId := 7 }).2.2.1.cpt.lastChangeId
          = exUpItem.id
      ∧ nextPollStart (processChange [true] exD1 { items := [exUpItem], largestChangeId := 7 }).2.2.1
          = (if exUpItem.id > 0 then some (exUpItem.id + 1) else none)) :=
  ⟨by decide, by decide, by decide,
   C3_amended exD1 exUpItem 7 1001 1001 (by decide) (by decide) (by decide)⟩

end DriveDB
